import Mathlib

/- Verification development for the nuVeto atmospheric self-veto engine
   (selfveto.py and its companions).  The numeric pipeline is embedded
   shallowly over ℚ; transcendental library functions (log10, exp, 10^x)
   and external-collaborator data (cascade-solver state, decay/yield
   matrices, cross sections, reach-probability tables) enter as explicit
   parameters, so every definition is executable on concrete inputs. -/

namespace NuVeto

/-- Errors raised by dictionary/table lookups on unknown particle or
channel names (spec section 7). -/
inductive VetoErr : Type where
  | UnknownParticle (name : String) : VetoErr
  | UnknownChannel (mother daughter : String) : VetoErr
deriving DecidableEq

/-- Boolean success test for `Except` results. -/
def okb {ε α : Type} : Except ε α → Bool
  | .ok _ => true
  | .error _ => false

/-- Trapezoidal rule `np.trapz(ys, xs)`: sum of `(y i + y (i+1))/2 * (x (i+1) - x i)`.
First argument is the ordinate list, second the abscissa list, matching
`numpy`/`scipy` argument order. -/
def trapz : List ℚ → List ℚ → ℚ
  | y1 :: y2 :: ys, x1 :: x2 :: xs => (y1 + y2) / 2 * (x2 - x1) + trapz (y2 :: ys) (x2 :: xs)
  | _, _ => 0

/-- Matrix–vector product `np.dot` for a matrix given as a list of rows. -/
def matvec (m : List (List ℚ)) (v : List ℚ) : List ℚ :=
  m.map (fun row => (List.zipWith (· * ·) row v).sum)

namespace ParticleProperties

/-- Modelled from the spec: `utils.ParticleProperties.pdg_id` — the static
particle-registry table mapping species names to PDG ids (spec section 3,
ParticleRecord).  The `utils` module is not under `src/`; the table is
reconstructed from the spec's description and the ids used in
`correlated_selfveto.py`. -/
def pdg_id_table : List (String × ℤ) :=
  [("pi+", 211), ("pi-", -211), ("K+", 321), ("K-", -321), ("K0L", 130), ("K0S", 310),
   ("mu+", -13), ("mu-", 13), ("numu", 14), ("antinumu", -14), ("nue", 12), ("antinue", -12),
   ("D+", 411), ("D-", -411), ("Ds+", 431), ("Ds-", -431), ("D0", 421), ("D0-bar", -421),
   ("Lambda0", 3122), ("Lambda0-bar", -3122), ("p+", 2212), ("p-", -2212), ("n0", 2112)]

/-- Dictionary access `ParticleProperties.pdg_id[name]`: an unknown name
fails explicitly (spec section 7: `UnknownParticle`). -/
def pdg_id (name : String) : Except VetoErr ℤ :=
  match pdg_id_table.find? (fun e => decide (e.1 = name)) with
  | some e => .ok e.2
  | none => .error (.UnknownParticle name)

/-- Modelled from the spec: `utils.ParticleProperties.mass_dict` — particle
masses in GeV (values for the pion and kaon as in the tables of
`correlated_selfveto.py`). -/
def mass_table : List (String × ℚ) :=
  [("pi+", 139570/1000000), ("pi-", 139570/1000000),
   ("K+", 493677/1000000), ("K-", 493677/1000000),
   ("K0L", 497611/1000000), ("K0S", 497611/1000000),
   ("mu+", 105658/1000000), ("mu-", 105658/1000000),
   ("D+", 186962/100000), ("D-", 186962/100000),
   ("Ds+", 196834/100000), ("Ds-", 196834/100000),
   ("D0", 186483/100000), ("D0-bar", 186483/100000),
   ("Lambda0", 1115683/1000000), ("Lambda0-bar", 1115683/1000000)]

/-- Dictionary access `ParticleProperties.mass_dict[name]`. -/
def mass_dict (name : String) : Except VetoErr ℚ :=
  match mass_table.find? (fun e => decide (e.1 = name)) with
  | some e => .ok e.2
  | none => .error (.UnknownParticle name)

/-- Modelled from the spec: `utils.ParticleProperties.lifetime_dict` —
particle lifetimes (values for the pion and kaon as in
`correlated_selfveto.py`, seconds). -/
def lifetime_table : List (String × ℚ) :=
  [("pi+", 26033/1000000000000), ("pi-", 26033/1000000000000),
   ("K+", 12389/1000000000000), ("K-", 12389/1000000000000),
   ("K0L", 51160/1000000000000), ("K0S", 8954/100000000000000),
   ("mu+", 2197/1000000000), ("mu-", 2197/1000000000),
   ("D+", 104/100000000000000), ("D-", 104/100000000000000),
   ("Ds+", 504/1000000000000000), ("Ds-", 504/1000000000000000),
   ("D0", 41/100000000000000), ("D0-bar", 41/100000000000000),
   ("Lambda0", 2632/10000000000000), ("Lambda0-bar", 2632/10000000000000)]

/-- Dictionary access `ParticleProperties.lifetime_dict[name]`. -/
def lifetime_dict (name : String) : Except VetoErr ℚ :=
  match lifetime_table.find? (fun e => decide (e.1 = name)) with
  | some e => .ok e.2
  | none => .error (.UnknownParticle name)

/-- Modelled from the spec: `utils.ParticleProperties.rr` — squared mass
ratio `r` of each tabulated two-body decay channel (spec section 3,
DecayChannel).  The pion and kaon values are those of the `r_dict` table in
`correlated_selfveto.py`. -/
def rr_table : List ((String × String) × ℚ) :=
  [(("pi+", "numu"), 573/1000), (("pi-", "antinumu"), 573/1000),
   (("K+", "numu"), 46/1000), (("K-", "antinumu"), 46/1000)]

/-- Channel lookup `ParticleProperties.rr(mother, daughter)`: an untabulated
channel fails explicitly (spec section 7: `UnknownChannel`). -/
def rr (mother daughter : String) : Except VetoErr ℚ :=
  match rr_table.find? (fun e => decide (e.1 = (mother, daughter))) with
  | some e => .ok e.2
  | none => .error (.UnknownChannel mother daughter)

/-- Modelled from the spec: `utils.ParticleProperties.br_2body` — two-body
branching ratio of each tabulated decay channel. -/
def br_2body_table : List ((String × String) × ℚ) :=
  [(("pi+", "numu"), 9999/10000), (("pi-", "antinumu"), 9999/10000),
   (("K+", "numu"), 6356/10000), (("K-", "antinumu"), 6356/10000)]

/-- Channel lookup `ParticleProperties.br_2body(mother, daughter)`. -/
def br_2body (mother daughter : String) : Except VetoErr ℚ :=
  match br_2body_table.find? (fun e => decide (e.1 = (mother, daughter))) with
  | some e => .ok e.2
  | none => .error (.UnknownChannel mother daughter)

end ParticleProperties

/-- Python's substring test `pat in s`, on character lists. -/
def hasSub (pat : List Char) : List Char → Bool
  | [] => pat.isPrefixOf []
  | c :: rest => pat.isPrefixOf (c :: rest) || hasSub pat rest

/-- `SelfVeto.is_prompt` from selfveto.py: a category is prompt when it is
the literal `pr` or starts with `D` or `L`. -/
def is_prompt (categ : String) : Bool :=
  categ == "pr" || categ.front == 'D' || categ.front == 'L'

/-- `SelfVeto.categ_to_mothers` from selfveto.py: the mother species that
feed a decay category and daughter.  Substring tests (`'anti' in daughter`)
are done on the character lists. -/
def categ_to_mothers (categ daughter : String) : List String :=
  let anti := hasSub "anti".data daughter.data
  let charge := if anti then "-" else "+"
  let lcharge := if anti then "+" else "-"
  let bar := if anti then "-bar" else ""
  let lbar := if anti then "" else "-bar"
  if categ = "conv" then
    ["pi" ++ charge, "K" ++ charge, "K0L"] ++
      (if hasSub "nue".data daughter.data then ["K0S", "mu" ++ charge]
       else ["mu" ++ lcharge])
  else if categ = "pr" then
    ["D" ++ charge, "Ds" ++ charge, "D0" ++ bar, "Lambda0" ++ lbar]
  else [categ]

/-- `SelfVeto.projectiles` from selfveto.py: for each configured projectile
pdg id, append its name (an unknown id is an uncaught KeyError, modelled as
`UnknownParticle`), then try to append the antiparticle's name, silently
skipping ids whose negative has no name (`except KeyError: continue`). -/
def projectiles (pdg_ids : List ℤ) (namer : ℤ → Option String) : Except VetoErr (List String) :=
  pdg_ids.foldlM (fun acc pid => do
    let nm ← match namer pid with
      | some s => pure s
      | none => Except.error (VetoErr.UnknownParticle (toString pid))
    match namer (-pid) with
    | some s2 => pure (acc ++ [nm, s2])
    | none => pure (acc ++ [nm])) []

/-- A `scipy.interpolate.interp1d` object built with `bounds_error=False`
and a `(below, above)` fill-value pair.  The interior interpolation rule
(here `kind='quadratic'`) passes through the nodes; it is carried as an
abstract function, with the interpolation property supplied as a hypothesis
where a theorem needs it. -/
structure Interp1d : Type where
  xs : List ℚ
  ys : List ℚ
  fillBelow : ℚ
  fillAbove : ℚ
  interior : ℚ → ℚ

/-- Lower end of an `Interp1d` domain: the least node (`interp1d` sorts the
nodes it is given). -/
def Interp1d.xlo (f : Interp1d) : ℚ :=
  match f.xs with
  | [] => 0
  | a :: t => t.foldl min a

/-- Upper end of an `Interp1d` domain: the greatest node. -/
def Interp1d.xhi (f : Interp1d) : ℚ :=
  match f.xs with
  | [] => 0
  | a :: t => t.foldl max a

/-- Evaluation of an `Interp1d`: below the domain the lower fill value,
above the domain the upper fill value, inside the interior rule. -/
def Interp1d.eval (f : Interp1d) (x : ℚ) : ℚ :=
  if x < f.xlo then f.fillBelow
  else if f.xhi < x then f.fillAbove
  else f.interior x

/-- The fixed representative daughter-energy index `ihijo = 20` of
`get_dNdEE`. -/
def ihijo : ℕ := 20

/-- The daughter energy-fraction grid `x_range = e_grid[ihijo]/e_grid`. -/
def dNdEE_x_range (e_grid : List ℚ) : List ℚ :=
  e_grid.map (fun e => e_grid.getD ihijo 0 / e)

/-- The raw differential spectrum `dN_mat[ihijo]*e_grid/delta`. -/
def dNdEE_arr (e_grid delta : List ℚ) (dN_mat : List (List ℚ)) : List ℚ :=
  List.zipWith (· / ·) (List.zipWith (· * ·) (dN_mat.getD ihijo []) e_grid) delta

/-- `logx_width = -np.diff(log10(x_range))[0]`. -/
def dNdEE_logx_width (log10 : ℚ → ℚ) (e_grid : List ℚ) : ℚ :=
  -(((dNdEE_x_range e_grid).map log10).getD 1 0 -
    ((dNdEE_x_range e_grid).map log10).getD 0 0)

/-- The `good` samples: fraction/spectrum pairs with
`log10(x) + logx_width/2 < log10(1-rr)` and `x ≥ 5e-2`. -/
def dNdEE_goods (log10 : ℚ → ℚ) (e_grid delta : List ℚ) (dN_mat : List (List ℚ))
    (rr : ℚ) : List (ℚ × ℚ) :=
  ((dNdEE_x_range e_grid).zip (dNdEE_arr e_grid delta dN_mat)).filter
    (fun p => decide (log10 p.1 + dNdEE_logx_width log10 e_grid / 2 < log10 (1 - rr)) &&
              decide ((5 : ℚ)/100 ≤ p.1))

/-- The pure core of `SelfVeto.get_dNdEE` after the table lookups: from the
energy grid, bin widths, the decay matrix and the channel constants `rr`
and `br`, build the fraction grid, the raw spectrum and the interpolant.
The node list is `1 - rr` (carrying the analytic edge value
`br/(1 - rr)`) prepended to the good fractions, and `interp1d` sorts it,
so the domain ends are the min/max of the nodes; the fill values are
`(lower, 0.0)` with `lower` the last good spectrum value. -/
def dNdEE_core (log10 : ℚ → ℚ) (e_grid delta : List ℚ) (dN_mat : List (List ℚ))
    (interior : ℚ → ℚ) (rr br : ℚ) : List ℚ × List ℚ × Interp1d :=
  let goods := dNdEE_goods log10 e_grid delta dN_mat rr
  (dNdEE_x_range e_grid, dNdEE_arr e_grid delta dN_mat,
    { xs := (1 - rr) :: goods.map Prod.fst
      ys := br / (1 - rr) :: goods.map Prod.snd
      fillBelow := (goods.map Prod.snd).getLastD 0
      fillAbove := 0
      interior := interior })

/-- `SelfVeto.get_dNdEE` from selfveto.py: look up the channel constants
and the decay matrix (missing matrix → `UnknownChannel`, as the spec
documents for the cascade solver's `get_d_matrix`), then build the kernel. -/
def get_dNdEE (log10 : ℚ → ℚ) (e_grid delta : List ℚ)
    (dmat : ℤ → ℤ → Option (List (List ℚ))) (interior : ℚ → ℚ)
    (mother daughter : String) : Except VetoErr (List ℚ × List ℚ × Interp1d) := do
  let rrv ← ParticleProperties.rr mother daughter
  let brv ← ParticleProperties.br_2body mother daughter
  let pm ← ParticleProperties.pdg_id mother
  let pd ← ParticleProperties.pdg_id daughter
  let dN_mat ← match dmat pm pd with
    | some m => pure m
    | none => Except.error (VetoErr.UnknownChannel mother daughter)
  return dNdEE_core log10 e_grid delta dN_mat interior rrv brv

/-- The per-configuration engine state that `SelfVeto.get_solution` reads:
projectile names, the solver's name→index-range map, cross sections, yield
matrices, grids, and the unit constants from `utils.Units`. -/
structure SolCtx : Type where
  projs : List String
  ref : String → Option (ℕ × ℕ)
  cs : ℤ → List ℚ
  yields : ℤ → ℤ → Option (List (List ℚ))
  e_grid : List ℚ
  e_widths : List ℚ
  x_vec : List ℚ
  mceq_len : ℕ
  X2rho : ℚ → ℚ
  uGeV : ℚ
  ucm : ℚ
  uNa : ℚ
  umolair : ℚ

/-- The depth-sample selection at the head of `SelfVeto.get_solution`
(lines 135–143): `grid_idx = None` or `grid_idx ≥ len(self.mceq.grid_sol)`
both select the last stored sample and last depth value. -/
def select_sol (grid_sol : List (List ℚ)) (x_vec : List ℚ) (mceq_len : ℕ) :
    Option ℕ → List ℚ × ℚ
  | none => (grid_sol.getLastD [], x_vec.getLastD 0)
  | some k =>
    if mceq_len ≤ k then (grid_sol.getLastD [], x_vec.getLastD 0)
    else (grid_sol.getD k [], x_vec.getD k 0)

/-- `SelfVeto.get_solution` from selfveto.py: select the depth sample,
accumulate the regenerated component over projectiles (a projectile whose
yield matrix is missing is skipped: `except KeyError: continue`), scale by
the decay length, overwrite with the direct component where the latter is
nonzero (`res[direct!=0] = direct[direct!=0]`), add the pre-split muon
sub-solutions for muon species, and apply the `E^mag` and bin-width
post-processing. -/
def get_solution (ctx : SolCtx) (particle_name : String) (grid_sol : List (List ℚ))
    (mag : ℕ) (grid_idx : Option ℕ) (int_flag : Bool) : Except VetoErr (List ℚ) := do
  let p_pdg ← ParticleProperties.pdg_id particle_name
  let sel := select_sol grid_sol ctx.x_vec ctx.mceq_len grid_idx
  let sol := sel.1
  let xv := sel.2
  let rho_air := ctx.X2rho xv
  let mass ← ParticleProperties.mass_dict particle_name
  let lt ← ParticleProperties.lifetime_dict particle_name
  let decayl := ctx.e_grid.map (fun e => e * ctx.uGeV / mass * lt / ctx.ucm)
  let ndens := rho_air * ctx.uNa / ctx.umolair
  let res0 : List ℚ := List.replicate ctx.e_grid.length 0
  let res ← ctx.projs.foldlM (fun acc prim => do
      let pr ← match ctx.ref prim with
        | some r => pure r
        | none => Except.error (VetoErr.UnknownParticle prim)
      let prim_flux := (sol.drop pr.1).take (pr.2 - pr.1)
      let prim_pdg ← ParticleProperties.pdg_id prim
      let prim_xs := ctx.cs prim_pdg
      match ctx.yields prim_pdg p_pdg with
      | some m =>
          pure (List.zipWith (· + ·) acc
            (matvec m (List.zipWith (fun f x => f * x * ndens) prim_flux prim_xs)))
      | none => pure acc) res0
  let res := List.zipWith (· * ·) res decayl
  let rp ← match ctx.ref particle_name with
    | some r => pure r
    | none => Except.error (VetoErr.UnknownParticle particle_name)
  let direct := (sol.drop rp.1).take (rp.2 - rp.1)
  let res := List.zipWith (fun r d => if d = 0 then r else d) res direct
  let res ← if particle_name.dropRight 1 = "mu" then
      ["k_" ++ particle_name, "pi_" ++ particle_name, "pr_" ++ particle_name].foldlM
        (fun acc nm => do
          match ctx.ref nm with
          | some r => pure (List.zipWith (· + ·) acc ((sol.drop r.1).take (r.2 - r.1)))
          | none => Except.error (VetoErr.UnknownParticle nm)) res
    else pure res
  let res := List.zipWith (fun r e => r * e ^ mag) res ctx.e_grid
  if int_flag then return List.zipWith (· * ·) res ctx.e_widths
  else return res

/-- The direct solved component of a species' flux, as the spec's words
describe it (spec section 4.3): the species' slice of the raw solver
state. -/
def directComp (ref : String → Option (ℕ × ℕ)) (sol : List ℚ) (name : String) : List ℚ :=
  match ref name with
  | some r => (sol.drop r.1).take (r.2 - r.1)
  | none => []

/-- The regenerated component of a species' flux, as the spec's words
describe it (spec section 4.3): the sum, over every allowed projectile
species with a tabulated yield matrix, of
`(interaction yield matrix) · (projectile flux × cross section × target density)`,
scaled by the species' decay length. -/
def regen_spec (ctx : SolCtx) (sol : List ℚ) (xv : ℚ) (p_pdg : ℤ) (mass lt : ℚ) : List ℚ :=
  let ndens := ctx.X2rho xv * ctx.uNa / ctx.umolair
  let total := ctx.projs.foldl (fun acc prim =>
    match ctx.ref prim, (ParticleProperties.pdg_id prim).toOption with
    | some r, some ppdg =>
      match ctx.yields ppdg p_pdg with
      | some m =>
          List.zipWith (· + ·) acc
            (matvec m (List.zipWith (fun f x => f * x * ndens)
              ((sol.drop r.1).take (r.2 - r.1)) (ctx.cs ppdg)))
      | none => acc
    | _, _ => acc) (List.replicate ctx.e_grid.length 0)
  List.zipWith (· * ·) total (ctx.e_grid.map (fun e => e * ctx.uGeV / mass * lt / ctx.ucm))

/-- `SelfVeto.get_integrand` from selfveto.py: for each companion-energy
sample `e` with weight `w`, sum over the mother species of
`kernel(enu/e) / e * rescale_phi(e) * w`.  The per-channel kernel and the
rescaled parent flux are the externally built interpolants, passed in as
functions. -/
def get_integrand (categ daughter : String) (dNdEE : String → String → ℚ → ℚ)
    (rescale_phi : String → ℚ → ℚ) (weight esamp : List ℚ) (enu : ℚ) : List ℚ :=
  List.zipWith (fun e w =>
    ((categ_to_mothers categ daughter).map (fun mother =>
      dNdEE mother daughter (enu / e) / e * rescale_phi mother e * w)).sum)
    esamp weight

/-- `SelfVeto.prob_nomu` from selfveto.py: the Poisson zero-muon
probability `exp(-∫ (mu- + mu+) × prpl(E·GeV, overburden) dE)` over the
energy grid, with the overburden computed from the engine's `costh`. -/
def prob_nomu (ctx : SolCtx) (expf : ℚ → ℚ) (overburden : ℚ → ℚ) (costh : ℚ)
    (prpl : ℚ → ℚ → ℚ) (grid_sol : List (List ℚ)) : Except VetoErr ℚ := do
  let l_ice := overburden costh
  let mum ← get_solution ctx "mu-" grid_sol 0 none false
  let mup ← get_solution ctx "mu+" grid_sol 0 none false
  let mu := List.zipWith (· + ·) mum mup
  return expf (-(trapz (List.zipWith (fun m e => m * prpl (e * ctx.uGeV) l_ice) mu ctx.e_grid)
                 ctx.e_grid))

/-- Modelled from the spec: the `functools32.lru_cache` bounded
least-recently-used cache (spec sections 3 and 4.6; the decorator library
is not under `src/`).  Entries are kept most-recent first. -/
structure LruCache (K V : Type) : Type where
  capacity : ℕ
  entries : List (K × V)

/-- Modelled from the spec: one cached call.  A hit returns the stored
value and moves the key to the front; a miss computes, inserts at the
front, and truncates to capacity, silently evicting the least-recently-used
entry.  The boolean reports whether the underlying function was computed
(the spec's instrumented call counter). -/
def LruCache.call {K V : Type} [DecidableEq K] (c : LruCache K V) (f : K → V) (k : K) :
    V × LruCache K V × Bool :=
  match c.entries.find? (fun e => decide (e.1 = k)) with
  | some e => (e.2, ⟨c.capacity, (k, e.2) :: c.entries.eraseP (fun e => decide (e.1 = k))⟩, false)
  | none => (f k, ⟨c.capacity, ((k, f k) :: c.entries).take c.capacity⟩, true)

/-- The cache attached to `prob_nomu` by `@lru_cache(maxsize=2**10)`:
keyed by the argument triple `(ecr, particle, prpl)`, of power-of-two
capacity `2^10`. -/
def prob_nomu_cache0 : LruCache (ℚ × ℤ × String) ℚ :=
  { capacity := 2 ^ 10, entries := [] }

/-- A call to the memoized `prob_nomu`: the cache key is the argument
triple `(ecr, particle, prpl)`. -/
def prob_nomu_cached (c : LruCache (ℚ × ℤ × String) ℚ) (compute : ℚ × ℤ × String → ℚ)
    (ecr : ℚ) (particle : ℤ) (prpl : String) : ℚ × LruCache (ℚ × ℤ × String) ℚ × Bool :=
  c.call compute (ecr, particle, prpl)

/-- `np.logspace(a, b, n)` with the base-10 power function passed in as a
parameter: sample `i` is `10^(a + (b - a)·i/(n-1))`. -/
def logspace (pow10 : ℚ → ℚ) (a b : ℚ) (n : ℕ) : List ℚ :=
  (List.range n).map (fun (i : ℕ) => pow10 (a + (b - a) * (i : ℚ) / ((n : ℚ) - 1)))

/-- The primary cosmic-ray energy grid of `get_fluxes` full mode
(line 271): `amu(particle) * np.logspace(2, 10, 10*accuracy)`. -/
def ecrs_grid (pow10 : ℚ → ℚ) (amu : ℤ → ℚ) (accuracy : ℕ) (particle : ℤ) : List ℚ :=
  (logspace pow10 2 10 (10 * accuracy)).map (fun x => amu particle * x)

/-- `np.argmax(l > v)`: index of the first element exceeding `v`, or 0 when
none does. -/
def argmax_gt (l : List ℚ) (v : ℚ) : ℕ :=
  let i := l.findIdx (fun x => decide (v < x))
  if i = l.length then 0 else i

/-- `istart = max(0, np.argmax(ecrs > enu) - 1)` (line 278): the first
primary-energy sample index kept by the outer integration loop. -/
def istart_of (ecrs : List ℚ) (enu : ℚ) : ℕ :=
  argmax_gt ecrs enu - 1

/-- The inner double integral of `get_fluxes` full mode for one primary
energy: over the depth grid, the trapezoidal integral over companion energy
of the assembled integrand, weighted by the interpolated no-muon
probability for the numerator and by the identity weighting for the
denominator (lines 288–297). -/
def num_den_ecr (categ daughter : String) (dNdEE : String → String → ℚ → ℚ)
    (rescale_phi : ℕ → String → ℚ → ℚ) (nx : ℕ) (reaching pnmarr esamp : List ℚ)
    (enu : ℚ) : ℚ × ℚ :=
  (((List.range nx).map (fun idx =>
      trapz (List.zipWith (· * ·)
        (get_integrand categ daughter dNdEE (rescale_phi idx) reaching esamp enu) pnmarr)
        esamp)).sum,
   ((List.range nx).map (fun idx =>
      trapz (get_integrand categ daughter dNdEE (rescale_phi idx)
        (List.replicate esamp.length 1) esamp enu) esamp)).sum)

/-- `get_fluxes` in correlated-only mode (lines 258–265): integrate the
assembled integrand over the depth grid and companion energies against the
default-primary cascade solution only. -/
def get_fluxes_corr (categ daughter : String) (dNdEE : String → String → ℚ → ℚ)
    (rescale0 : ℕ → String → ℚ → ℚ) (nx : ℕ) (reaching esamp : List ℚ) (enu : ℚ) :
    ℚ × ℚ :=
  (((List.range nx).map (fun idx =>
      trapz (get_integrand categ daughter dNdEE (rescale0 idx) reaching esamp enu) esamp)).sum,
   ((List.range nx).map (fun idx =>
      trapz (get_integrand categ daughter dNdEE (rescale0 idx)
        (List.replicate esamp.length 1) esamp enu) esamp)).sum)

/-- `get_fluxes` in full mode (lines 267–305): for each nucleus species,
build the primary-energy grid, drop the samples before `istart`, compute
the inner double integral per primary energy, weight by the primary flux,
and integrate over primary energy; sum over species. -/
def get_fluxes_full (categ daughter : String) (dNdEE : String → String → ℚ → ℚ)
    (rescale : ℤ → ℚ → ℕ → String → ℚ → ℚ) (pow10 : ℚ → ℚ) (amu : ℤ → ℚ)
    (accuracy : ℕ) (nucleus_ids : List ℤ) (pnmfn : ℤ → ℚ → ℚ)
    (nucleus_flux : ℤ → ℚ → ℚ) (phim2 phicm2 : ℚ) (nx : ℕ)
    (reaching esamp : List ℚ) (enu : ℚ) : ℚ × ℚ :=
  let per := nucleus_ids.map (fun particle =>
    let ecrs := ecrs_grid pow10 amu accuracy particle
    let tail := ecrs.drop (istart_of ecrs enu)
    let nums := tail.map (fun ecr =>
      (num_den_ecr categ daughter dNdEE (rescale particle ecr) nx reaching
        (esamp.map (fun e => pnmfn particle (ecr - e))) esamp enu).1 *
        (nucleus_flux particle ecr * phim2) / phicm2)
    let dens := tail.map (fun ecr =>
      (num_den_ecr categ daughter dNdEE (rescale particle ecr) nx reaching
        (esamp.map (fun e => pnmfn particle (ecr - e))) esamp enu).2 *
        (nucleus_flux particle ecr * phim2) / phicm2)
    (trapz nums tail, trapz dens tail))
  ((per.map Prod.fst).sum, (per.map Prod.snd).sum)

/-- `SelfVeto.get_fluxes`: dispatch between correlated-only and full mode
on the `corr_only` flag. -/
def get_fluxes (corr_only : Bool) (categ daughter : String)
    (dNdEE : String → String → ℚ → ℚ) (rescale0 : ℕ → String → ℚ → ℚ)
    (rescale : ℤ → ℚ → ℕ → String → ℚ → ℚ) (pow10 : ℚ → ℚ) (amu : ℤ → ℚ)
    (accuracy : ℕ) (nucleus_ids : List ℤ) (pnmfn : ℤ → ℚ → ℚ)
    (nucleus_flux : ℤ → ℚ → ℚ) (phim2 phicm2 : ℚ) (nx : ℕ)
    (reaching esamp : List ℚ) (enu : ℚ) : ℚ × ℚ :=
  if corr_only then get_fluxes_corr categ daughter dNdEE rescale0 nx reaching esamp enu
  else get_fluxes_full categ daughter dNdEE rescale pow10 amu accuracy nucleus_ids
    pnmfn nucleus_flux phim2 phicm2 nx reaching esamp enu

/-- Piecewise-linear interior interpolation over sorted nodes, as
`scipy.interpolate.interp1d(kind='linear')` computes inside its domain. -/
def lin_interp : List (ℚ × ℚ) → ℚ → ℚ
  | (x1, y1) :: (x2, y2) :: rest, x =>
      if x ≤ x2 then y1 + (y2 - y1) * (x - x1) / (x2 - x1)
      else lin_interp ((x2, y2) :: rest) x
  | [(_, y1)], _ => y1
  | [], _ => 0

/-- The coarse no-muon-probability interpolant of `get_fluxes` full mode
(lines 273–275): linear over the primary-energy samples, with fill values
`(1, nan)`.  The NaN fill is modelled by `none`, which propagates through
the NaN-aware arithmetic below. -/
def pnmfn_eval (ecrs pnm : List ℚ) (x : ℚ) : Option ℚ :=
  if x < ecrs.getD 0 0 then some 1
  else if ecrs.getLastD 0 < x then none
  else some (lin_interp (ecrs.zip pnm) x)

/-- NaN-propagating addition on `Option ℚ`. -/
def oadd : Option ℚ → Option ℚ → Option ℚ
  | some a, some b => some (a + b)
  | _, _ => none

/-- NaN-propagating trapezoidal rule: a NaN ordinate taints every
trapezoid it appears in, exactly as IEEE NaN does in `np.trapz`. -/
def otrapz : List (Option ℚ) → List ℚ → Option ℚ
  | y1 :: y2 :: ys, x1 :: x2 :: xs =>
      oadd ((oadd y1 y2).map (fun s => s / 2 * (x2 - x1))) (otrapz (y2 :: ys) (x2 :: xs))
  | _, _ => some 0

/-- The numerator contribution of one primary energy with NaN-aware
no-muon weights: `trapz(integrand * pnmarr, esamp)` where `pnmarr` may
contain NaN (line 290–293). -/
def num_ecr_nan (integrand : List ℚ) (pnmarr : List (Option ℚ)) (esamp : List ℚ) :
    Option ℚ :=
  otrapz (List.zipWith (fun y p => p.map (fun q => y * q)) integrand pnmarr) esamp

/-- The key of the process-wide engine registry `SVS`:
`(cos_theta, pmodel, hadr)` (the primary model is identified by its
class/name tag pair). -/
structure EngineKey : Type where
  cos_theta : ℚ
  pmodel : String × String
  hadr : String
deriving DecidableEq

/-- The registry lookup shared by `passing_rate` and `total_flux`
(lines 312–316): return the stored engine for the key, constructing and
registering a new one only when the key is absent. -/
def lookup_or_create {E : Type} (svs : List (EngineKey × E)) (mk : EngineKey → E)
    (key : EngineKey) : E × List (EngineKey × E) :=
  match svs.find? (fun e => decide (e.1 = key)) with
  | some e => (e.2, svs)
  | none => (mk key, (key, mk key) :: svs)

/-- `passing_rate` from selfveto.py: look up or create the engine, delegate
to `get_fluxes`, and return `num/den` when `fraction` else raw `num`,
together with the updated registry. -/
def passing_rate {E : Type} (svs : List (EngineKey × E)) (mk : EngineKey → E)
    (getFluxes : E → ℚ × ℚ) (key : EngineKey) (fraction : Bool) :
    ℚ × List (EngineKey × E) :=
  let r := lookup_or_create svs mk key
  let nd := getFluxes r.1
  (if fraction then nd.1 / nd.2 else nd.1, r.2)

/-- `total_flux` from selfveto.py: the same registry lookup, returning only
the second (total) component of `get_fluxes`. -/
def total_flux {E : Type} (svs : List (EngineKey × E)) (mk : EngineKey → E)
    (getFluxes : E → ℚ × ℚ) (key : EngineKey) : ℚ × List (EngineKey × E) :=
  let r := lookup_or_create svs mk key
  ((getFluxes r.1).2, r.2)

/- ------------------------------------------------------------------ -/
/- Concrete fixtures used by witnesses and counterexamples             -/
/- ------------------------------------------------------------------ -/

/-- A strictly monotone computable stand-in for `x ↦ 10^x`, agreeing with
the real power function at the exponents 2 and 10 used by the grid
theorems. -/
def pw10lin (q : ℚ) : ℚ := 100 + (q - 2) * ((10 ^ 10 - 100) / 8)

/-- A computable stand-in for `log10`: order-preserving and
order-reflecting on the positive rationals. -/
def negInv (q : ℚ) : ℚ := -1 / q

/-- A computable stand-in for `exp`: everywhere positive, monotone, and 1
at 0. -/
def expStandin (q : ℚ) : ℚ := if 0 ≤ q then 1 + q else 1 / (1 - q)

/-- Fixture registry key. -/
def keyW : EngineKey := ⟨1, ("HillasGaisser2012", "H3a"), "SIBYLL2.3c"⟩

/-- Fixture engine constructor. -/
def mkW : EngineKey → ℚ := fun _ => 7

/-- Fixture flux computation: `(passed, total) = (3, 4)`. -/
def gfW : ℚ → ℚ × ℚ := fun _ => (3, 4)

/-- Fixture cached computation for the LRU cache. -/
def fW : ℚ × ℤ × String → ℚ := fun _ => 9

/-- Fixture energy grid for the decay-kernel theorems: a geometric grid of
24 bins (ratio 4), long enough to reach fractions below the kinematic
edge. -/
def egC2 : List ℚ :=
  [1, 4, 16, 64, 256, 1024, 4096, 16384, 65536, 262144, 1048576, 4194304,
   16777216, 67108864, 268435456, 1073741824, 4294967296, 17179869184,
   68719476736, 274877906944, 1099511627776, 4398046511104, 17592186044416,
   70368744177664]

/-- Fixture bin widths for the decay-kernel theorems. -/
def dlC2 : List ℚ := List.replicate 24 1

/-- Fixture decay-matrix table holding one entry for the `pi+ → numu`
channel. -/
def dmC2 : ℤ → ℤ → Option (List (List ℚ)) :=
  fun a b =>
    if a = 211 ∧ b = 14 then some (List.replicate 21 (List.replicate 24 1)) else none

/-- Fixture interior interpolation rule for the kernel counterexample. -/
def intrC2 : ℚ → ℚ := fun _ => 0

/-- Fixture interior rule taking the analytic edge value of the
`pi+ → numu` channel at every point. -/
def intrW : ℚ → ℚ := fun _ => (9999/10000 : ℚ) / (1 - 573/1000)

/-- Fixture engine context for the flux-combination theorems: a 2-bin
energy grid, one projectile (`p+`) spanning state slice `[0,2)`, the
species `pi+` spanning `[2,4)`, and an identity yield matrix for
`p+ → pi+`. -/
def ctxC3 : SolCtx :=
  { projs := ["p+"]
    ref := fun s => if s = "p+" then some (0, 2) else if s = "pi+" then some (2, 4) else none
    cs := fun _ => [1, 1]
    yields := fun a b => if a = 2212 ∧ b = 211 then some [[1, 0], [0, 1]] else none
    e_grid := [1, 2]
    e_widths := [1, 1]
    x_vec := [1]
    mceq_len := 1
    X2rho := fun _ => 1
    uGeV := 1
    ucm := 1
    uNa := 1
    umolair := 1 }

/-- Fixture raw solver state for the flux-combination theorems: projectile
flux `[1, 1]`, direct `pi+` component `[5, 0]` (nonzero in the first bin
only). -/
def gsC3 : List (List ℚ) := [[1, 1, 5, 0]]

/-- Fixture particle namer knowing only the positive proton id. -/
def namerC4 : ℤ → Option String := fun pid => if pid = 2212 then some "p+" else none

/-- Fixture engine context for the Poisson zero-muon witness: empty
projectile list and index ranges for the muon species and their pre-split
sub-solutions. -/
def ctxW7 : SolCtx :=
  { projs := []
    ref := fun s =>
      if s = "mu-" ∨ s = "mu+" then some (0, 2)
      else if s = "k_mu-" ∨ s = "k_mu+" then some (2, 4)
      else if s = "pi_mu-" ∨ s = "pi_mu+" then some (4, 6)
      else if s = "pr_mu-" ∨ s = "pr_mu+" then some (6, 8)
      else none
    cs := fun _ => [1, 1]
    yields := fun _ _ => none
    e_grid := [1, 2]
    e_widths := [1, 1]
    x_vec := [1]
    mceq_len := 1
    X2rho := fun _ => 1
    uGeV := 1
    ucm := 1
    uNa := 1
    umolair := 1 }

/-- Fixture raw solver state for the Poisson zero-muon witness. -/
def gsW7 : List (List ℚ) := [[1, 2, 1, 1, 1, 1, 1, 1]]

/-- Fixture engine context for the depth-fallback witness. -/
def ctxW5 : SolCtx :=
  { projs := []
    ref := fun s => if s = "pi+" then some (0, 1) else none
    cs := fun _ => [1]
    yields := fun _ _ => none
    e_grid := [1]
    e_widths := [1]
    x_vec := [1]
    mceq_len := 1
    X2rho := fun _ => 1
    uGeV := 1
    ucm := 1
    uNa := 1
    umolair := 1 }

/- ------------------------------------------------------------------ -/
/- Helper lemmas                                                       -/
/- ------------------------------------------------------------------ -/

theorem except_bind_ok {ε α β : Type} (a : α) (f : α → Except ε β) :
    (Except.ok a : Except ε α) >>= f = f a := rfl

theorem except_bind_error {ε α β : Type} (e : ε) (f : α → Except ε β) :
    (Except.error e : Except ε α) >>= f = Except.error e := rfl

theorem except_pure_eq {ε α : Type} (a : α) :
    (pure a : Except ε α) = Except.ok a := rfl

theorem except_map_ok {ε α β : Type} (f : α → β) (a : α) :
    (Except.ok a : Except ε α).map f = Except.ok (f a) := rfl

theorem except_toOption_ok {ε α : Type} (a : α) :
    (Except.ok a : Except ε α).toOption = some a := rfl

theorem trapz_nil_left (xs : List ℚ) : trapz [] xs = 0 := by
  cases xs <;> rfl

theorem trapz_single_left (y : ℚ) (xs : List ℚ) : trapz [y] xs = 0 := by
  cases xs with
  | nil => rfl
  | cons x xs => cases xs <;> rfl

theorem trapz_nil_right (ys : List ℚ) : trapz ys [] = 0 := by
  cases ys with
  | nil => rfl
  | cons y ys => cases ys <;> rfl

theorem trapz_single_right (ys : List ℚ) (x : ℚ) : trapz ys [x] = 0 := by
  cases ys with
  | nil => rfl
  | cons y ys => cases ys <;> rfl

theorem trapz_cons₂ (y1 y2 x1 x2 : ℚ) (ys xs : List ℚ) :
    trapz (y1 :: y2 :: ys) (x1 :: x2 :: xs) =
      (y1 + y2) / 2 * (x2 - x1) + trapz (y2 :: ys) (x2 :: xs) := rfl

/-- Monotonicity of the trapezoidal rule in the ordinates, over a
nondecreasing abscissa list. -/
theorem trapz_le_trapz (ys zs xs : List ℚ) (hlen : ys.length = zs.length)
    (hch : List.Chain' (· ≤ ·) xs)
    (hle : ∀ (i : ℕ) (h1 : i < ys.length) (h2 : i < zs.length), ys[i] ≤ zs[i]) :
    trapz ys xs ≤ trapz zs xs := by
  induction ys generalizing zs xs with
  | nil =>
    have : zs = [] := List.length_eq_zero.mp (by simpa using hlen.symm)
    subst this
    simp [trapz_nil_left]
  | cons y1 ys ih =>
    cases zs with
    | nil => simp at hlen
    | cons z1 zs =>
      cases ys with
      | nil =>
        have : zs = [] := List.length_eq_zero.mp (by simpa using hlen.symm)
        subst this
        simp [trapz_single_left]
      | cons y2 ys =>
        cases zs with
        | nil => simp at hlen
        | cons z2 zs =>
          cases xs with
          | nil => simp [trapz_nil_right]
          | cons x1 xs =>
            cases xs with
            | nil => simp [trapz_single_right]
            | cons x2 xs =>
              rw [trapz_cons₂, trapz_cons₂]
              have hx : x1 ≤ x2 := (List.chain'_cons.mp hch).1
              have h0 : y1 ≤ z1 := hle 0 (by simp) (by simp)
              have h1 : y2 ≤ z2 := hle 1 (by simp) (by simp)
              have hrec : trapz (y2 :: ys) (x2 :: xs) ≤ trapz (z2 :: zs) (x2 :: xs) := by
                refine ih (z2 :: zs) (x2 :: xs) (by simpa using hlen) (List.chain'_cons.mp hch).2 ?_
                intro i hi1 hi2
                have := hle (i + 1) (by simpa using hi1) (by simpa using hi2)
                simpa using this
              have hterm : (y1 + y2) / 2 * (x2 - x1) ≤ (z1 + z2) / 2 * (x2 - x1) := by
                apply mul_le_mul_of_nonneg_right
                · linarith
                · linarith
              exact add_le_add hterm hrec

/-- The trapezoidal rule of nonnegative ordinates over a nondecreasing
abscissa list is nonnegative. -/
theorem trapz_nonneg (ys xs : List ℚ) (hch : List.Chain' (· ≤ ·) xs)
    (hnn : ∀ (i : ℕ) (hi : i < ys.length), 0 ≤ ys[i]) :
    0 ≤ trapz ys xs := by
  induction ys generalizing xs with
  | nil => simp [trapz_nil_left]
  | cons y1 ys ih =>
    cases ys with
    | nil => simp [trapz_single_left]
    | cons y2 ys =>
      cases xs with
      | nil => simp [trapz_nil_right]
      | cons x1 xs =>
        cases xs with
        | nil => simp [trapz_single_right]
        | cons x2 xs =>
          rw [trapz_cons₂]
          have hx : x1 ≤ x2 := (List.chain'_cons.mp hch).1
          have h0 : 0 ≤ y1 := hnn 0 (by simp)
          have h1 : 0 ≤ y2 := hnn 1 (by simp)
          have hrec : 0 ≤ trapz (y2 :: ys) (x2 :: xs) := by
            refine ih (x2 :: xs) (List.chain'_cons.mp hch).2 ?_
            intro i hi
            have := hnn (i + 1) (by simpa using hi)
            simpa using this
          have hterm : 0 ≤ (y1 + y2) / 2 * (x2 - x1) := by
            apply mul_nonneg
            · linarith
            · linarith
          linarith

/- ------------------------------------------------------------------ -/
/- C5: out-of-range depth index falls back to the deepest sample       -/
/- ------------------------------------------------------------------ -/

/-- C5: for every depth-grid index `k` with `k ≥` the number of stored
depth samples, `get_solution` does not raise an error for the index: it
behaves exactly as with the index omitted, and the selected sample is the
deepest (last) stored cascade-solution sample together with the last depth
value — the same selection the omitted-index case makes. -/
theorem get_solution_depth_fallback (ctx : SolCtx) (name : String)
    (gs : List (List ℚ)) (mag : ℕ) (b : Bool) (k : ℕ) (hk : ctx.mceq_len ≤ k) :
    get_solution ctx name gs mag (some k) b = get_solution ctx name gs mag none b ∧
    select_sol gs ctx.x_vec ctx.mceq_len (some k) = (gs.getLastD [], ctx.x_vec.getLastD 0) ∧
    select_sol gs ctx.x_vec ctx.mceq_len none = (gs.getLastD [], ctx.x_vec.getLastD 0) := by
  have hsel : select_sol gs ctx.x_vec ctx.mceq_len (some k) =
      select_sol gs ctx.x_vec ctx.mceq_len none := by
    simp [select_sol, hk]
  refine ⟨?_, by simp [select_sol, hk], rfl⟩
  unfold get_solution
  rw [hsel]

theorem get_solution_depth_fallback_witness :
    select_sol [[2]] ctxW5.x_vec ctxW5.mceq_len (some 5) =
      ([[(2 : ℚ)]].getLastD [], ctxW5.x_vec.getLastD 0) :=
  (get_solution_depth_fallback ctxW5 "pi+" [[2]] 0 false 5 (by decide)).2.1

/- ------------------------------------------------------------------ -/
/- C9: the engine registry of passing_rate / total_flux                -/
/- ------------------------------------------------------------------ -/

/-- C9: `passing_rate` looks the engine up in the process-wide registry by
`(cos_theta, pmodel, hadr)`; when present it is reused and the registry is
unchanged, when absent a new engine is constructed and registered; the
returned value is `passed/total` for `fraction = true` and raw `passed`
otherwise, and `total_flux` performs the same lookup returning only the
total component. -/
theorem passing_rate_registry {E : Type} (svs : List (EngineKey × E))
    (mk : EngineKey → E) (gf : E → ℚ × ℚ) (key : EngineKey) :
    (∀ e, svs.find? (fun p => decide (p.1 = key)) = some e →
       passing_rate svs mk gf key true = ((gf e.2).1 / (gf e.2).2, svs) ∧
       passing_rate svs mk gf key false = ((gf e.2).1, svs) ∧
       total_flux svs mk gf key = ((gf e.2).2, svs)) ∧
    (svs.find? (fun p => decide (p.1 = key)) = none →
       passing_rate svs mk gf key true =
         ((gf (mk key)).1 / (gf (mk key)).2, (key, mk key) :: svs) ∧
       passing_rate svs mk gf key false = ((gf (mk key)).1, (key, mk key) :: svs) ∧
       total_flux svs mk gf key = ((gf (mk key)).2, (key, mk key) :: svs)) := by
  constructor
  · intro e he
    refine ⟨?_, ?_, ?_⟩ <;> simp [passing_rate, total_flux, lookup_or_create, he]
  · intro he
    refine ⟨?_, ?_, ?_⟩ <;> simp [passing_rate, total_flux, lookup_or_create, he]

theorem passing_rate_registry_witness :
    passing_rate ([] : List (EngineKey × ℚ)) mkW gfW keyW true = (3 / 4, [(keyW, 7)]) :=
  (((passing_rate_registry ([] : List (EngineKey × ℚ)) mkW gfW keyW).2 rfl).1).trans
    (by rfl)

/- ------------------------------------------------------------------ -/
/- C8: prob_nomu memoization: bounded LRU cache keyed by the arguments  -/
/- ------------------------------------------------------------------ -/

/-- C8: the `prob_nomu` cache is keyed by `(primary energy, species,
reach-model tag)` with power-of-two capacity `2^10`; a repeated call with
identical arguments returns the identical stored value without recomputing;
and a miss on a full cache silently evicts the least-recently-used (oldest)
entry, keeping the length at capacity. -/
theorem prob_nomu_cache_lru :
    prob_nomu_cache0.capacity = 2 ^ 10 ∧
    (∀ (c : LruCache (ℚ × ℤ × String) ℚ) (f : ℚ × ℤ × String → ℚ)
       (ecr : ℚ) (particle : ℤ) (tag : String), 0 < c.capacity →
       (prob_nomu_cached (prob_nomu_cached c f ecr particle tag).2.1 f ecr particle tag).1 =
         (prob_nomu_cached c f ecr particle tag).1 ∧
       (prob_nomu_cached (prob_nomu_cached c f ecr particle tag).2.1 f ecr particle tag).2.2 =
         false) ∧
    (∀ (c : LruCache (ℚ × ℤ × String) ℚ) (f : ℚ × ℤ × String → ℚ) (k : ℚ × ℤ × String),
       c.entries.length = c.capacity → 0 < c.capacity → k ∉ c.entries.map Prod.fst →
       (c.call f k).2.1.entries.length = c.capacity ∧
       (c.call f k).2.1.entries = (k, f k) :: c.entries.dropLast) := by
  refine ⟨rfl, ?_, ?_⟩
  · intro c f ecr particle tag hcap
    unfold prob_nomu_cached LruCache.call
    cases hfind : c.entries.find? (fun e => decide (e.1 = (ecr, particle, tag))) with
    | some e =>
      simp only [hfind]
      have : List.find? (fun e => decide (e.1 = (ecr, particle, tag)))
          (((ecr, particle, tag), e.2) ::
            c.entries.eraseP (fun e => decide (e.1 = (ecr, particle, tag)))) =
          some ((ecr, particle, tag), e.2) := by
        apply List.find?_cons_of_pos
        simp
      simp [this]
    | none =>
      simp only [hfind]
      obtain ⟨m, hm⟩ : ∃ m, c.capacity = m + 1 :=
        ⟨c.capacity - 1, by omega⟩
      have htake : (((ecr, particle, tag), f (ecr, particle, tag)) :: c.entries).take c.capacity =
          ((ecr, particle, tag), f (ecr, particle, tag)) :: c.entries.take m := by
        rw [hm, List.take_succ_cons]
      have : List.find? (fun e => decide (e.1 = (ecr, particle, tag)))
          ((((ecr, particle, tag), f (ecr, particle, tag)) :: c.entries).take c.capacity) =
          some ((ecr, particle, tag), f (ecr, particle, tag)) := by
        rw [htake]
        apply List.find?_cons_of_pos
        simp
      simp [this]
  · intro c f k hfull hcap hnotin
    have hfind : c.entries.find? (fun e => decide (e.1 = k)) = none := by
      apply List.find?_eq_none.mpr
      intro x hx
      simp only [decide_eq_true_eq]
      intro hxk
      exact hnotin (hxk ▸ List.mem_map_of_mem Prod.fst hx)
    obtain ⟨m, hm⟩ : ∃ m, c.capacity = m + 1 := ⟨c.capacity - 1, by omega⟩
    unfold LruCache.call
    rw [hfind]
    have hlen : c.entries.length = m + 1 := by omega
    constructor
    · simp only [List.length_take, List.length_cons, hlen]
      omega
    · have : ((k, f k) :: c.entries).take c.capacity = (k, f k) :: c.entries.take m := by
        rw [hm, List.take_succ_cons]
      rw [this, List.dropLast_eq_take, hlen]
      simp

theorem prob_nomu_cache_lru_witness :
    (prob_nomu_cached (prob_nomu_cached prob_nomu_cache0 fW 1 14 "step_1").2.1
      fW 1 14 "step_1").2.2 = false :=
  ((prob_nomu_cache_lru.2.1) prob_nomu_cache0 fW 1 14 "step_1" (by decide)).2

/- ------------------------------------------------------------------ -/
/- C6: the primary cosmic-ray energy sampling grid of full mode        -/
/- ------------------------------------------------------------------ -/

theorem logspace_length (pow10 : ℚ → ℚ) (a b : ℚ) (n : ℕ) :
    (logspace pow10 a b n).length = n := by
  unfold logspace
  rw [List.length_map, List.length_range]

theorem ecrs_grid_length (pow10 : ℚ → ℚ) (amu : ℤ → ℚ) (accuracy : ℕ) (particle : ℤ) :
    (ecrs_grid pow10 amu accuracy particle).length = 10 * accuracy := by
  unfold ecrs_grid
  rw [List.length_map, logspace_length]

theorem ecrs_grid_getElem (pow10 : ℚ → ℚ) (amu : ℤ → ℚ) (accuracy : ℕ) (particle : ℤ)
    (i : ℕ) (h : i < (ecrs_grid pow10 amu accuracy particle).length) :
    (ecrs_grid pow10 amu accuracy particle)[i] =
      amu particle *
        pow10 (2 + (10 - 2) * (i : ℚ) / (((10 * accuracy : ℕ) : ℚ) - 1)) := by
  have hi : i < 10 * accuracy := by
    rw [ecrs_grid_length] at h
    exact h
  unfold ecrs_grid logspace
  rw [List.getElem_map, List.getElem_map, List.getElem_range]

theorem ecrs_grid_first (pow10 : ℚ → ℚ) (amu : ℤ → ℚ) (accuracy : ℕ) (particle : ℤ)
    (h2 : pow10 2 = 100) (h0 : 0 < (ecrs_grid pow10 amu accuracy particle).length) :
    (ecrs_grid pow10 amu accuracy particle)[0] = amu particle * 100 := by
  rw [ecrs_grid_getElem pow10 amu accuracy particle 0 h0]
  have : (2 : ℚ) + (10 - 2) * ((0 : ℕ) : ℚ) / (((10 * accuracy : ℕ) : ℚ) - 1) = 2 := by
    push_cast
    ring
  rw [this, h2]

theorem ecrs_grid_last (pow10 : ℚ → ℚ) (amu : ℤ → ℚ) (accuracy : ℕ) (particle : ℤ)
    (hacc : 1 ≤ accuracy) (h10 : pow10 10 = 10 ^ 10)
    (hl : 10 * accuracy - 1 < (ecrs_grid pow10 amu accuracy particle).length) :
    (ecrs_grid pow10 amu accuracy particle)[10 * accuracy - 1] =
      amu particle * 10 ^ 10 := by
  rw [ecrs_grid_getElem pow10 amu accuracy particle (10 * accuracy - 1) hl]
  have h10le : (10 : ℚ) ≤ ((10 * accuracy : ℕ) : ℚ) := by
    have : (10 : ℕ) ≤ 10 * accuracy := by omega
    exact_mod_cast this
  have hne : (((10 * accuracy : ℕ) : ℚ)) - 1 ≠ 0 := by
    intro hz
    nlinarith
  have hcast : ((10 * accuracy - 1 : ℕ) : ℚ) = ((10 * accuracy : ℕ) : ℚ) - 1 := by
    have h1 : (1 : ℕ) ≤ 10 * accuracy := by omega
    push_cast [h1]
    ring
  have hexp : (2 : ℚ) + (10 - 2) * ((10 * accuracy - 1 : ℕ) : ℚ) /
      (((10 * accuracy : ℕ) : ℚ) - 1) = 10 := by
    rw [hcast, mul_div_assoc, div_self hne]
    norm_num
  rw [hexp, h10]

/-- C6 (amended): in full mode, for every nucleus species the primary
cosmic-ray energy is sampled on a log-spaced grid of `10*accuracy` points
whose domain is `100·A` GeV (`= 10^2·A`, the lowest sample) to `1e10·A`
GeV (the highest sample), where `A = amu(particle)` is the species' mass
number. -/
theorem ecrs_grid_domain (pow10 : ℚ → ℚ) (amu : ℤ → ℚ) (accuracy : ℕ) (particle : ℤ)
    (hacc : 1 ≤ accuracy) (h2 : pow10 2 = 100) (h10 : pow10 10 = 10 ^ 10) :
    (ecrs_grid pow10 amu accuracy particle).length = 10 * accuracy ∧
    (∀ h0 : 0 < (ecrs_grid pow10 amu accuracy particle).length,
      (ecrs_grid pow10 amu accuracy particle)[0] = amu particle * 100) ∧
    (∀ hl : 10 * accuracy - 1 < (ecrs_grid pow10 amu accuracy particle).length,
      (ecrs_grid pow10 amu accuracy particle)[10 * accuracy - 1] =
        amu particle * 10 ^ 10) :=
  ⟨ecrs_grid_length pow10 amu accuracy particle,
   fun h0 => ecrs_grid_first pow10 amu accuracy particle h2 h0,
   fun hl => ecrs_grid_last pow10 amu accuracy particle hacc h10 hl⟩

/-- C6 counterexample: the primary-energy grid is
`amu * np.logspace(2, 10, 10*accuracy)`, so for a mass-number-1 species
and any power function consistent with `10^2 = 100` (the linear stand-in
`pw10lin` is), the lowest sample is `100` GeV — not the `50` GeV lower
end the claim states for the sampling domain. -/
theorem ecrs_grid_domain_cex :
    (ecrs_grid pw10lin (fun _ => 1) 1 14).getD 0 0 = 100 ∧ (100 : ℚ) ≠ 50 := by
  have hlt : 0 < (ecrs_grid pw10lin (fun _ => 1) 1 14).length := by
    rw [ecrs_grid_length]
    decide
  constructor
  · rw [List.getD_eq_getElem _ _ hlt, ecrs_grid_getElem pw10lin (fun _ => 1) 1 14 0 hlt]
    norm_num [pw10lin]
  · norm_num

theorem ecrs_grid_domain_witness :
    (ecrs_grid pw10lin (fun _ => 1) 1 14).length = 10 * 1 ∧
    (ecrs_grid pw10lin (fun _ => 1) 1 14).getD 0 0 = 1 * 100 := by
  have h := ecrs_grid_domain pw10lin (fun _ => 1) 1 14 (le_refl 1) (by norm_num [pw10lin])
    (by norm_num [pw10lin])
  have hlt : 0 < (ecrs_grid pw10lin (fun _ => 1) 1 14).length := by
    rw [h.1]
    decide
  exact ⟨h.1, (List.getD_eq_getElem _ _ hlt).trans (h.2.1 hlt)⟩

/- ------------------------------------------------------------------ -/
/- C2: the decay kernel's support and edge value                       -/
/- ------------------------------------------------------------------ -/

theorem negInv_lt_iff (a b : ℚ) (ha : 0 < a) (hb : 0 < b) :
    negInv a < negInv b ↔ a < b := by
  unfold negInv
  rw [neg_div, neg_div, neg_lt_neg_iff]
  exact one_div_lt_one_div hb ha

theorem foldl_min_le_init (l : List ℚ) : ∀ init : ℚ, l.foldl min init ≤ init := by
  induction l with
  | nil => intro init; simp
  | cons a t ih =>
    intro init
    rw [List.foldl_cons]
    exact le_trans (ih (min init a)) (min_le_left _ _)

theorem foldl_max_eq_init (l : List ℚ) :
    ∀ init : ℚ, (∀ a ∈ l, a ≤ init) → l.foldl max init = init := by
  induction l with
  | nil => intro init _; rfl
  | cons a t ih =>
    intro init h
    rw [List.foldl_cons, max_eq_left (h a (List.mem_cons_self a t))]
    exact ih init (fun x hx => h x (List.mem_cons_of_mem a hx))

theorem kernel_eval_above (gxs ys : List ℚ) (lo top x : ℚ) (intr : ℚ → ℚ)
    (hle : ∀ a ∈ gxs, a ≤ top) (hx : top < x) :
    Interp1d.eval ⟨top :: gxs, ys, lo, 0, intr⟩ x = 0 := by
  have hhi : Interp1d.xhi ⟨top :: gxs, ys, lo, 0, intr⟩ = top :=
    foldl_max_eq_init gxs top hle
  have hlo : Interp1d.xlo ⟨top :: gxs, ys, lo, 0, intr⟩ ≤ top :=
    foldl_min_le_init gxs top
  unfold Interp1d.eval
  rw [if_neg (not_lt.mpr (hlo.trans hx.le)), if_pos (by rw [hhi]; exact hx)]

theorem kernel_eval_top (gxs ys : List ℚ) (lo top : ℚ) (intr : ℚ → ℚ)
    (hle : ∀ a ∈ gxs, a ≤ top) :
    Interp1d.eval ⟨top :: gxs, ys, lo, 0, intr⟩ top = intr top := by
  have hhi : Interp1d.xhi ⟨top :: gxs, ys, lo, 0, intr⟩ = top :=
    foldl_max_eq_init gxs top hle
  have hlo : Interp1d.xlo ⟨top :: gxs, ys, lo, 0, intr⟩ ≤ top :=
    foldl_min_le_init gxs top
  unfold Interp1d.eval
  rw [if_neg (not_lt.mpr hlo), if_neg (by rw [hhi]; exact lt_irrefl top)]

/-- Every good fraction lies below the kinematic edge `1 - rr`: the `good`
filter demands `log10 x + logx_width/2 < log10 (1-rr)` and the log-bin
width is nonnegative on a nondecreasing positive grid. -/
theorem dNdEE_goods_le (log10 : ℚ → ℚ) (e_grid delta : List ℚ)
    (dN_mat : List (List ℚ)) (rr : ℚ)
    (hlog : ∀ a b : ℚ, 0 < a → 0 < b → (log10 a < log10 b ↔ a < b))
    (hlen : ihijo < e_grid.length)
    (hpos : ∀ e ∈ e_grid, 0 < e)
    (h01 : e_grid.getD 0 0 ≤ e_grid.getD 1 0)
    (hrr1 : rr < 1) :
    ∀ p ∈ dNdEE_goods log10 e_grid delta dN_mat rr, p.1 ≤ 1 - rr := by
  have hlog_le : ∀ a b : ℚ, 0 < a → 0 < b → (log10 a ≤ log10 b ↔ a ≤ b) := by
    intro a b ha hb
    rw [← not_lt, ← not_lt, not_iff_not]
    exact hlog b a hb ha
  have hlen0 : 0 < e_grid.length := by omega
  have hlen1 : 1 < e_grid.length := by
    have : ihijo = 20 := rfl
    omega
  have hc : 0 < e_grid.getD ihijo 0 := by
    rw [List.getD_eq_getElem _ _ hlen]
    exact hpos _ (List.getElem_mem hlen)
  have hx_pos : ∀ x ∈ dNdEE_x_range e_grid, 0 < x := by
    intro x hx
    unfold dNdEE_x_range at hx
    obtain ⟨e, he, rfl⟩ := List.mem_map.mp hx
    exact div_pos hc (hpos e he)
  have hxr_len : (dNdEE_x_range e_grid).length = e_grid.length := by
    unfold dNdEE_x_range
    rw [List.length_map]
  have hw : 0 ≤ dNdEE_logx_width log10 e_grid := by
    unfold dNdEE_logx_width
    have hm_len : ((dNdEE_x_range e_grid).map log10).length = e_grid.length := by
      rw [List.length_map, hxr_len]
    have hb0 : 0 < ((dNdEE_x_range e_grid).map log10).length := by omega
    have hb1 : 1 < ((dNdEE_x_range e_grid).map log10).length := by omega
    rw [List.getD_eq_getElem _ _ hb1, List.getD_eq_getElem _ _ hb0]
    have hx0 : 0 < (dNdEE_x_range e_grid).length := by omega
    have hx1 : 1 < (dNdEE_x_range e_grid).length := by omega
    rw [List.getElem_map, List.getElem_map]
    have he0 : (dNdEE_x_range e_grid)[0] = e_grid.getD ihijo 0 / e_grid[0] := by
      unfold dNdEE_x_range
      rw [List.getElem_map]
    have he1 : (dNdEE_x_range e_grid)[1] = e_grid.getD ihijo 0 / e_grid[1] := by
      unfold dNdEE_x_range
      rw [List.getElem_map]
    have hp0 : 0 < e_grid[0] := hpos _ (List.getElem_mem (by omega))
    have hp1 : 0 < e_grid[1] := hpos _ (List.getElem_mem (by omega))
    have h01' : e_grid[0] ≤ e_grid[1] := by
      rw [List.getD_eq_getElem _ _ (by omega : 0 < e_grid.length),
        List.getD_eq_getElem _ _ (by omega : 1 < e_grid.length)] at h01
      exact h01
    have hdivle : e_grid.getD ihijo 0 / e_grid[1] ≤ e_grid.getD ihijo 0 / e_grid[0] := by
      rw [div_le_div_iff₀ hp1 hp0]
      have := hc.le
      nlinarith
    have hlogle : log10 ((dNdEE_x_range e_grid)[1]) ≤ log10 ((dNdEE_x_range e_grid)[0]) := by
      rw [he0, he1]
      exact (hlog_le _ _ (div_pos hc hp1) (div_pos hc hp0)).mpr hdivle
    linarith
  intro p hp
  obtain ⟨px, py⟩ := p
  unfold dNdEE_goods at hp
  rw [List.mem_filter] at hp
  obtain ⟨hmem, hcond⟩ := hp
  rw [Bool.and_eq_true, decide_eq_true_eq, decide_eq_true_eq] at hcond
  have hp1 : 0 < px := hx_pos _ (List.of_mem_zip hmem).1
  have hedge : 0 < 1 - rr := by linarith
  have hlt : log10 px < log10 (1 - rr) := by
    have := hcond.1
    simp only at this
    linarith
  exact ((hlog _ _ hp1 hedge).mp hlt).le

/-- The kernel that `dNdEE_core` builds is zero strictly above the
kinematic edge `1 - rr`, and at `1 - rr` it takes the interior
interpolation rule's value (the edge node). -/
theorem dNdEE_core_eval_props (log10 : ℚ → ℚ) (e_grid delta : List ℚ)
    (dN_mat : List (List ℚ)) (interior : ℚ → ℚ) (rr br : ℚ)
    (hlog : ∀ a b : ℚ, 0 < a → 0 < b → (log10 a < log10 b ↔ a < b))
    (hlen : ihijo < e_grid.length)
    (hpos : ∀ e ∈ e_grid, 0 < e)
    (h01 : e_grid.getD 0 0 ≤ e_grid.getD 1 0)
    (hrr1 : rr < 1) :
    (∀ x : ℚ, 1 - rr < x →
      ((dNdEE_core log10 e_grid delta dN_mat interior rr br).2.2).eval x = 0) ∧
    ((dNdEE_core log10 e_grid delta dN_mat interior rr br).2.2).eval (1 - rr) =
      interior (1 - rr) := by
  have hgle := dNdEE_goods_le log10 e_grid delta dN_mat rr hlog hlen hpos h01 hrr1
  have hle : ∀ a ∈ (dNdEE_goods log10 e_grid delta dN_mat rr).map Prod.fst, a ≤ 1 - rr := by
    intro a ha
    obtain ⟨p, hp, rfl⟩ := List.mem_map.mp ha
    exact hgle p hp
  constructor
  · intro x hx
    exact kernel_eval_above _ _ _ _ _ _ hle hx
  · exact kernel_eval_top _ _ _ _ _ hle

/-- C2 (amended): for every decay channel accepted by `get_dNdEE`, the
returned kernel is zero for every `x` strictly above `1 - r` (with
`r = (m_daughter/m_mother)^2` the channel's squared mass ratio), and its
value at `x = 1 - r` — the edge node the code prepends — is the analytic
two-body edge value `br_2body(mother, daughter)/(1 - r)` whenever the
interior interpolation rule passes through that node (as any `interp1d`
does).  Below the smallest good fraction the kernel is held flat at the
last good spectrum value, so the claim's support `[r, 1]` and its edge
location `x = r` do not hold. -/
theorem get_dNdEE_support_edge (log10 : ℚ → ℚ) (e_grid delta : List ℚ)
    (dmat : ℤ → ℤ → Option (List (List ℚ))) (interior : ℚ → ℚ)
    (mother daughter : String) (rrv brv : ℚ) (res : List ℚ × List ℚ × Interp1d)
    (hrr : ParticleProperties.rr mother daughter = .ok rrv)
    (hbr : ParticleProperties.br_2body mother daughter = .ok brv)
    (hres : get_dNdEE log10 e_grid delta dmat interior mother daughter = .ok res)
    (hlog : ∀ a b : ℚ, 0 < a → 0 < b → (log10 a < log10 b ↔ a < b))
    (hlen : ihijo < e_grid.length)
    (hpos : ∀ e ∈ e_grid, 0 < e)
    (h01 : e_grid.getD 0 0 ≤ e_grid.getD 1 0)
    (hrr1 : rrv < 1)
    (hintp : interior (1 - rrv) = brv / (1 - rrv)) :
    (∀ x : ℚ, 1 - rrv < x → res.2.2.eval x = 0) ∧
    res.2.2.eval (1 - rrv) = brv / (1 - rrv) := by
  unfold get_dNdEE at hres
  rw [hrr, hbr] at hres
  cases hpm : ParticleProperties.pdg_id mother with
  | error e =>
    rw [hpm] at hres
    rw [except_bind_ok, except_bind_ok, except_bind_error] at hres
    exact Except.noConfusion hres
  | ok pm =>
    rw [hpm] at hres
    cases hpd : ParticleProperties.pdg_id daughter with
    | error e =>
      rw [hpd] at hres
      rw [except_bind_ok, except_bind_ok, except_bind_ok, except_bind_error] at hres
      exact Except.noConfusion hres
    | ok pd =>
      rw [hpd] at hres
      rw [except_bind_ok, except_bind_ok, except_bind_ok, except_bind_ok] at hres
      cases hdm : dmat pm pd with
      | none =>
        rw [hdm] at hres
        exact Except.noConfusion hres
      | some m =>
        rw [hdm] at hres
        simp only [except_pure_eq, except_bind_ok, Except.ok.injEq] at hres
        subst hres
        have h := dNdEE_core_eval_props log10 e_grid delta m interior rrv brv
          hlog hlen hpos h01 hrr1
        exact ⟨h.1, h.2.trans hintp⟩

/-- C2 counterexample: for the `pi+ → numu` channel, `r = 0.573 > 1 - r`,
so the kernel evaluated at `x = r` lies strictly above the interpolant's
top node `1 - r` and returns the upper fill value `0`, while the analytic
two-body edge value `br/(1-r)` is nonzero — the claim's equality at `x = r`
fails (and the kernel is already zero on part of the claimed support
`[r, 1]`). -/
theorem get_dNdEE_support_edge_cex :
    ((get_dNdEE negInv egC2 dlC2 dmC2 intrC2 "pi+" "numu").map
      (fun t => t.2.2.eval (573/1000))).toOption = some 0 ∧
    (9999/10000 : ℚ) / (1 - 573/1000) ≠ 0 := by
  have hok : get_dNdEE negInv egC2 dlC2 dmC2 intrC2 "pi+" "numu" =
      .ok (dNdEE_core negInv egC2 dlC2
        (List.replicate 21 (List.replicate 24 1)) intrC2 (573/1000) (9999/10000)) := by
    rfl
  have hprops := dNdEE_core_eval_props negInv egC2 dlC2
      (List.replicate 21 (List.replicate 24 1)) intrC2 (573/1000) (9999/10000)
      (fun a b ha hb => negInv_lt_iff a b ha hb)
      (by decide)
      (by decide)
      (by decide)
      (by norm_num)
  constructor
  · rw [hok, except_map_ok, except_toOption_ok]
    exact congrArg some (hprops.1 (573/1000) (by norm_num))
  · norm_num

theorem get_dNdEE_support_edge_witness :
    ((dNdEE_core negInv egC2 dlC2 (List.replicate 21 (List.replicate 24 1)) intrW
      (573/1000) (9999/10000)).2.2).eval 1 = 0 :=
  (get_dNdEE_support_edge negInv egC2 dlC2 dmC2 intrW "pi+" "numu" (573/1000) (9999/10000)
    (dNdEE_core negInv egC2 dlC2 (List.replicate 21 (List.replicate 24 1)) intrW
      (573/1000) (9999/10000))
    rfl rfl rfl
    (fun a b ha hb => negInv_lt_iff a b ha hb)
    (by decide) (by decide) (by decide)
    (by norm_num) (by norm_num [intrW])).1 1 (by norm_num)

/- ------------------------------------------------------------------ -/
/- Shared reduction of get_solution on successful lookups              -/
/- ------------------------------------------------------------------ -/

theorem foldlM_eq_ok {α β : Type} (l : List α) (f : β → α → Except VetoErr β)
    (g : β → α → β) (h : ∀ a ∈ l, ∀ b, f b a = .ok (g b a)) :
    ∀ b0 : β, l.foldlM f b0 = .ok (l.foldl g b0) := by
  induction l with
  | nil => intro b0; rfl
  | cons a t ih =>
    intro b0
    rw [List.foldlM_cons, h a (List.mem_cons_self a t) b0, except_bind_ok, List.foldl_cons]
    exact ih (fun x hx b => h x (List.mem_cons_of_mem a hx) b) (g b0 a)

theorem zipWith_pow_zero (l e : List ℚ) :
    List.zipWith (fun r x => r * x ^ (0 : ℕ)) l e = l.take e.length := by
  induction l generalizing e with
  | nil => simp
  | cons a t ih =>
    cases e with
    | nil => simp
    | cons b u =>
      rw [List.zipWith_cons_cons, pow_zero, mul_one, ih u, List.length_cons,
        List.take_succ_cons]

/-- Reduction of `get_solution` (with `mag = 0`, `integrate = False`) when
every table lookup succeeds and the species is not a muon: the result is
the regenerated component overwritten by the direct component where the
latter is nonzero.  Projectiles without a tabulated yield matrix
contribute nothing (silently skipped) but never cause a failure. -/
theorem get_solution_ok (ctx : SolCtx) (name : String) (gs : List (List ℚ))
    (gi : Option ℕ) (p : ℤ) (m lt : ℚ) (rp : ℕ × ℕ)
    (hpdg : ParticleProperties.pdg_id name = .ok p)
    (hm : ParticleProperties.mass_dict name = .ok m)
    (hlt : ParticleProperties.lifetime_dict name = .ok lt)
    (href : ctx.ref name = some rp)
    (hprojs : ∀ prim ∈ ctx.projs,
      (∃ r, ctx.ref prim = some r) ∧ ∃ q, ParticleProperties.pdg_id prim = .ok q)
    (hnmu : name.dropRight 1 ≠ "mu") :
    get_solution ctx name gs 0 gi false =
      .ok (List.zipWith (fun r d => if d = 0 then r else d)
        (regen_spec ctx (select_sol gs ctx.x_vec ctx.mceq_len gi).1
          (select_sol gs ctx.x_vec ctx.mceq_len gi).2 p m lt)
        (directComp ctx.ref (select_sol gs ctx.x_vec ctx.mceq_len gi).1 name)) := by
  unfold get_solution
  rw [hpdg, except_bind_ok, hm, except_bind_ok, hlt, except_bind_ok]
  have hfold := foldlM_eq_ok ctx.projs
    (fun acc prim => do
      let pr ← match ctx.ref prim with
        | some r => pure r
        | none => Except.error (VetoErr.UnknownParticle prim)
      let prim_flux := ((select_sol gs ctx.x_vec ctx.mceq_len gi).1.drop pr.1).take
        (pr.2 - pr.1)
      let prim_pdg ← ParticleProperties.pdg_id prim
      let prim_xs := ctx.cs prim_pdg
      match ctx.yields prim_pdg p with
      | some mm =>
          pure (List.zipWith (· + ·) acc
            (matvec mm (List.zipWith (fun f x =>
              f * x * (ctx.X2rho (select_sol gs ctx.x_vec ctx.mceq_len gi).2 *
                ctx.uNa / ctx.umolair)) prim_flux prim_xs)))
      | none => pure acc)
    (fun acc prim =>
      match ctx.ref prim, (ParticleProperties.pdg_id prim).toOption with
      | some r, some ppdg =>
        match ctx.yields ppdg p with
        | some mm =>
            List.zipWith (· + ·) acc
              (matvec mm (List.zipWith (fun f x =>
                f * x * (ctx.X2rho (select_sol gs ctx.x_vec ctx.mceq_len gi).2 *
                  ctx.uNa / ctx.umolair))
                (((select_sol gs ctx.x_vec ctx.mceq_len gi).1.drop r.1).take (r.2 - r.1))
                (ctx.cs ppdg)))
        | none => acc
      | _, _ => acc)
    (by
      intro a ha b
      obtain ⟨⟨r, hr⟩, ⟨q, hq⟩⟩ := hprojs a ha
      simp only [hr, hq, except_pure_eq, except_bind_ok, Except.toOption]
      cases hy : ctx.yields q p <;> rfl)
    (List.replicate ctx.e_grid.length 0)
  simp only [hpdg, hm, hlt, except_bind_ok]
  rw [hfold]
  simp only [except_bind_ok, href, except_pure_eq]
  rw [if_neg hnmu]
  simp only [except_pure_eq, except_bind_ok, Bool.false_eq_true, if_false]
  unfold regen_spec directComp
  rw [href]
  refine congrArg Except.ok ?_
  rw [zipWith_pow_zero]
  apply List.take_of_length_le
  rw [List.length_zipWith, List.length_zipWith, List.length_map]
  omega

/- ------------------------------------------------------------------ -/
/- C3: how get_solution combines direct and regenerated components     -/
/- ------------------------------------------------------------------ -/

/-- C3 (amended): for every species with successful table lookups (and not
a muon, whose pre-split sub-solutions are added separately),
`get_solution` does **not** add the direct and regenerated components at
every bin: at each energy bin it returns the direct solved component where
that is nonzero, and the regenerated component — the sum over the allowed
projectile species of `(yield matrix)·(projectile flux × cross section ×
target density)` scaled by the species' decay length — only at the bins
where the direct component vanishes (`res[direct!=0] = direct[direct!=0]`). -/
theorem get_solution_components (ctx : SolCtx) (name : String) (gs : List (List ℚ))
    (gi : Option ℕ) (p : ℤ) (m lt : ℚ) (rp : ℕ × ℕ)
    (hpdg : ParticleProperties.pdg_id name = .ok p)
    (hm : ParticleProperties.mass_dict name = .ok m)
    (hlt : ParticleProperties.lifetime_dict name = .ok lt)
    (href : ctx.ref name = some rp)
    (hprojs : ∀ prim ∈ ctx.projs,
      (∃ r, ctx.ref prim = some r) ∧ ∃ q, ParticleProperties.pdg_id prim = .ok q)
    (hnmu : name.dropRight 1 ≠ "mu") :
    get_solution ctx name gs 0 gi false =
      .ok (List.zipWith (fun r d => if d = 0 then r else d)
        (regen_spec ctx (select_sol gs ctx.x_vec ctx.mceq_len gi).1
          (select_sol gs ctx.x_vec ctx.mceq_len gi).2 p m lt)
        (directComp ctx.ref (select_sol gs ctx.x_vec ctx.mceq_len gi).1 name)) :=
  get_solution_ok ctx name gs gi p m lt rp hpdg hm hlt href hprojs hnmu

theorem ctxC3_projs_ok : ∀ prim ∈ ctxC3.projs,
    (∃ r, ctxC3.ref prim = some r) ∧ ∃ q, ParticleProperties.pdg_id prim = .ok q := by
  intro prim hp
  have : prim = "p+" := List.mem_singleton.mp hp
  subst this
  exact ⟨⟨(0, 2), rfl⟩, ⟨2212, rfl⟩⟩

/-- C3 counterexample: on the concrete two-bin state `gsC3`, where both
the direct component (5 in bin 0) and the regenerated component are
nonzero in the first bin, `get_solution` does not return the sum of the
direct and regenerated components. -/
theorem get_solution_components_cex :
    get_solution ctxC3 "pi+" gsC3 0 none false ≠
      .ok (List.zipWith (· + ·)
        (regen_spec ctxC3 (select_sol gsC3 ctxC3.x_vec ctxC3.mceq_len none).1
          (select_sol gsC3 ctxC3.x_vec ctxC3.mceq_len none).2 211
          (139570/1000000) (26033/1000000000000))
        (directComp ctxC3.ref
          (select_sol gsC3 ctxC3.x_vec ctxC3.mceq_len none).1 "pi+")) := by
  rw [get_solution_ok ctxC3 "pi+" gsC3 none 211 (139570/1000000) (26033/1000000000000)
    (2, 4) rfl rfl rfl rfl ctxC3_projs_ok (by decide)]
  intro h
  rw [Except.ok.injEq] at h
  have hdir : directComp ctxC3.ref (select_sol gsC3 ctxC3.x_vec ctxC3.mceq_len none).1 "pi+"
      = [5, 0] := rfl
  have hreg : regen_spec ctxC3 (select_sol gsC3 ctxC3.x_vec ctxC3.mceq_len none).1
      (select_sol gsC3 ctxC3.x_vec ctxC3.mceq_len none).2 211
      (139570/1000000) (26033/1000000000000) =
      [26033/139570000000, 26033/69785000000] := by
    norm_num [regen_spec, matvec, ctxC3, gsC3, select_sol, List.replicate_succ,
      List.zipWith_cons_cons,
      show (ParticleProperties.pdg_id "p+").toOption = some 2212 from rfl]
  rw [hdir, hreg] at h
  simp only [List.zipWith_cons_cons, List.zipWith_nil_right, List.zipWith_nil_left] at h
  norm_num at h

theorem get_solution_components_witness :
    get_solution ctxC3 "pi+" gsC3 0 none false =
      .ok (List.zipWith (fun r d => if d = 0 then r else d)
        (regen_spec ctxC3 (select_sol gsC3 ctxC3.x_vec ctxC3.mceq_len none).1
          (select_sol gsC3 ctxC3.x_vec ctxC3.mceq_len none).2 211
          (139570/1000000) (26033/1000000000000))
        (directComp ctxC3.ref
          (select_sol gsC3 ctxC3.x_vec ctxC3.mceq_len none).1 "pi+")) :=
  get_solution_components ctxC3 "pi+" gsC3 none 211 (139570/1000000)
    (26033/1000000000000) (2, 4) rfl rfl rfl rfl ctxC3_projs_ok (by decide)

/- ------------------------------------------------------------------ -/
/- C4: unknown names and untabulated channels                          -/
/- ------------------------------------------------------------------ -/

/-- C4 (amended): top-level lookups fail explicitly — `get_dNdEE` fails
with `UnknownChannel` when the decay matrix for `(mother, daughter)` has
no tabulated entry, and `get_solution` fails with `UnknownParticle` for an
unknown species name; but inside the regeneration assembly unknown names
and missing tables are silently skipped: `projectiles` drops a pdg id
whose antiparticle has no name without error, and `get_solution` succeeds
(skipping the contribution) for projectiles without a tabulated yield
matrix rather than failing. -/
theorem unknown_name_handling :
    (∀ (log10 : ℚ → ℚ) (e_grid delta : List ℚ)
       (dmat : ℤ → ℤ → Option (List (List ℚ))) (interior : ℚ → ℚ)
       (mother daughter : String) (rrv brv : ℚ) (pm pd : ℤ),
       ParticleProperties.rr mother daughter = .ok rrv →
       ParticleProperties.br_2body mother daughter = .ok brv →
       ParticleProperties.pdg_id mother = .ok pm →
       ParticleProperties.pdg_id daughter = .ok pd →
       dmat pm pd = none →
       get_dNdEE log10 e_grid delta dmat interior mother daughter =
         .error (.UnknownChannel mother daughter)) ∧
    (∀ (ctx : SolCtx) (name : String) (gs : List (List ℚ)) (mag : ℕ)
       (gi : Option ℕ) (b : Bool) (e : VetoErr),
       ParticleProperties.pdg_id name = .error e →
       get_solution ctx name gs mag gi b = .error e) ∧
    (∀ (pid : ℤ) (namer : ℤ → Option String) (nm : String),
       namer pid = some nm → namer (-pid) = none →
       projectiles [pid] namer = .ok [nm]) ∧
    (∀ (ctx : SolCtx) (name : String) (gs : List (List ℚ)) (gi : Option ℕ)
       (p : ℤ) (m lt : ℚ) (rp : ℕ × ℕ),
       ParticleProperties.pdg_id name = .ok p →
       ParticleProperties.mass_dict name = .ok m →
       ParticleProperties.lifetime_dict name = .ok lt →
       ctx.ref name = some rp →
       (∀ prim ∈ ctx.projs,
         (∃ r, ctx.ref prim = some r) ∧ ∃ q, ParticleProperties.pdg_id prim = .ok q) →
       name.dropRight 1 ≠ "mu" →
       okb (get_solution ctx name gs 0 gi false) = true) := by
  refine ⟨?_, ?_, ?_, ?_⟩
  · intro log10 e_grid delta dmat interior mother daughter rrv brv pm pd
      hrr hbr hpm hpd hdm
    unfold get_dNdEE
    rw [hrr, except_bind_ok, hbr, except_bind_ok, hpm, except_bind_ok, hpd,
      except_bind_ok, hdm]
    rfl
  · intro ctx name gs mag gi b e hpdg
    unfold get_solution
    rw [hpdg, except_bind_error]
  · intro pid namer nm h1 h2
    unfold projectiles
    rw [List.foldlM_cons, h1]
    simp only [except_pure_eq, except_bind_ok, h2]
    rfl
  · intro ctx name gs gi p m lt rp hpdg hm hlt href hprojs hnmu
    rw [get_solution_ok ctx name gs gi p m lt rp hpdg hm hlt href hprojs hnmu]
    rfl

/-- C4 counterexample: the projectile id `-2212` has no tabulated name,
yet `projectiles` neither raises `UnknownParticle` nor records it — the
unknown name is silently skipped, returning `.ok ["p+"]`. -/
theorem unknown_name_handling_cex :
    projectiles [2212] namerC4 = .ok ["p+"] ∧ namerC4 (-2212) = none := by
  constructor
  · rfl
  · rfl

theorem unknown_name_handling_witness :
    get_solution ctxC3 "nosuch" gsC3 0 none false =
      .error (.UnknownParticle "nosuch") :=
  unknown_name_handling.2.1 ctxC3 "nosuch" gsC3 0 none false
    (.UnknownParticle "nosuch") rfl

/- ------------------------------------------------------------------ -/
/- C7: prob_nomu is a Poisson zero-muon probability in (0, 1]          -/
/- ------------------------------------------------------------------ -/

theorem expStandin_pos : ∀ x : ℚ, 0 < expStandin x := by
  intro x
  unfold expStandin
  by_cases h : 0 ≤ x
  · rw [if_pos h]
    linarith
  · rw [if_neg h]
    have := not_le.mp h
    apply div_pos one_pos
    linarith

theorem expStandin_mono : Monotone expStandin := by
  intro a b hab
  unfold expStandin
  by_cases ha : 0 ≤ a
  · rw [if_pos ha, if_pos (le_trans ha hab)]
    linarith
  · rw [if_neg ha]
    have ha' := not_le.mp ha
    by_cases hb : 0 ≤ b
    · rw [if_pos hb]
      have h1a : (1 : ℚ) ≤ 1 - a := by linarith
      have : 1 / (1 - a) ≤ 1 := by
        rw [div_le_one (by linarith)]
        linarith
      linarith
    · rw [if_neg hb]
      have hb' := not_le.mp hb
      exact one_div_le_one_div_of_le (by linarith) (by linarith)

/-- C7: `prob_nomu` returns
`exp(-∫ (mu⁻ + mu⁺)(E) · prpl(E·GeV, overburden(costh)) dE)` over the
energy grid — the total surface muon flux weighted by the reach
probability at the engine's overburden — and, for any exponential with the
properties of the real one, nonnegative muon fluxes, and reach
probabilities in `[0, 1]`, the value lies in `(0, 1]`. -/
theorem prob_nomu_poisson (ctx : SolCtx) (expf overburden : ℚ → ℚ) (costh : ℚ)
    (prpl : ℚ → ℚ → ℚ) (gs : List (List ℚ)) (mum mup : List ℚ)
    (hm : get_solution ctx "mu-" gs 0 none false = .ok mum)
    (hp : get_solution ctx "mu+" gs 0 none false = .ok mup)
    (hmm : ∀ x ∈ mum, 0 ≤ x) (hmp : ∀ x ∈ mup, 0 ≤ x)
    (hprpl : ∀ e l : ℚ, 0 ≤ prpl e l ∧ prpl e l ≤ 1)
    (hch : List.Chain' (· ≤ ·) ctx.e_grid)
    (hexp0 : expf 0 = 1) (hmono : Monotone expf) (hpos : ∀ x : ℚ, 0 < expf x) :
    prob_nomu ctx expf overburden costh prpl gs =
      .ok (expf (-(trapz (List.zipWith (fun mv e => mv * prpl (e * ctx.uGeV)
        (overburden costh)) (List.zipWith (· + ·) mum mup) ctx.e_grid) ctx.e_grid))) ∧
    (∀ v : ℚ, prob_nomu ctx expf overburden costh prpl gs = .ok v →
      0 < v ∧ v ≤ 1) := by
  have heq : prob_nomu ctx expf overburden costh prpl gs =
      .ok (expf (-(trapz (List.zipWith (fun mv e => mv * prpl (e * ctx.uGeV)
        (overburden costh)) (List.zipWith (· + ·) mum mup) ctx.e_grid) ctx.e_grid))) := by
    unfold prob_nomu
    rw [hm, except_bind_ok, hp, except_bind_ok]
    rfl
  refine ⟨heq, ?_⟩
  intro v hv
  rw [heq, Except.ok.injEq] at hv
  subst hv
  constructor
  · exact hpos _
  · have ht : 0 ≤ trapz (List.zipWith (fun mv e => mv * prpl (e * ctx.uGeV)
        (overburden costh)) (List.zipWith (· + ·) mum mup) ctx.e_grid) ctx.e_grid := by
      apply trapz_nonneg _ _ hch
      intro i hi
      rw [List.getElem_zipWith]
      apply mul_nonneg
      · rw [List.getElem_zipWith]
        have hb1 : i < mum.length := by
          rw [List.length_zipWith, List.length_zipWith] at hi
          omega
        have hb2 : i < mup.length := by
          rw [List.length_zipWith, List.length_zipWith] at hi
          omega
        have h1 : mum[i] ∈ mum := List.getElem_mem _
        have h2 : mup[i] ∈ mup := List.getElem_mem _
        exact add_nonneg (hmm _ h1) (hmp _ h2)
      · exact (hprpl _ _).1
    calc expf (-(trapz (List.zipWith (fun mv e => mv * prpl (e * ctx.uGeV)
          (overburden costh)) (List.zipWith (· + ·) mum mup) ctx.e_grid) ctx.e_grid))
        ≤ expf 0 := hmono (by linarith)
      _ = 1 := hexp0

theorem get_solution_muW7m :
    get_solution ctxW7 "mu-" gsW7 0 none false = .ok [4, 5] := by
  unfold get_solution
  norm_num [except_bind_ok, except_pure_eq, except_bind_error,
    show ParticleProperties.pdg_id "mu-" = .ok 13 from rfl,
    show ParticleProperties.mass_dict "mu-" = .ok (105658/1000000) from rfl,
    show ParticleProperties.lifetime_dict "mu-" = .ok (2197/1000000000) from rfl,
    show select_sol gsW7 ctxW7.x_vec ctxW7.mceq_len none = ([1, 2, 1, 1, 1, 1, 1, 1], 1)
      from rfl,
    show ctxW7.ref "mu-" = some (0, 2) from rfl,
    show ctxW7.ref ("k_" ++ "mu-") = some (2, 4) from rfl,
    show ctxW7.ref ("pi_" ++ "mu-") = some (4, 6) from rfl,
    show ctxW7.ref ("pr_" ++ "mu-") = some (6, 8) from rfl,
    show ctxW7.projs = [] from rfl,
    show ctxW7.e_grid = [1, 2] from rfl,
    show "mu-".dropRight 1 = "mu" from rfl,
    List.foldlM_nil, List.foldlM_cons, List.zipWith_cons_cons, List.replicate_succ]

theorem get_solution_muW7p :
    get_solution ctxW7 "mu+" gsW7 0 none false = .ok [4, 5] := by
  unfold get_solution
  norm_num [except_bind_ok, except_pure_eq, except_bind_error,
    show ParticleProperties.pdg_id "mu+" = .ok (-13) from rfl,
    show ParticleProperties.mass_dict "mu+" = .ok (105658/1000000) from rfl,
    show ParticleProperties.lifetime_dict "mu+" = .ok (2197/1000000000) from rfl,
    show select_sol gsW7 ctxW7.x_vec ctxW7.mceq_len none = ([1, 2, 1, 1, 1, 1, 1, 1], 1)
      from rfl,
    show ctxW7.ref "mu+" = some (0, 2) from rfl,
    show ctxW7.ref ("k_" ++ "mu+") = some (2, 4) from rfl,
    show ctxW7.ref ("pi_" ++ "mu+") = some (4, 6) from rfl,
    show ctxW7.ref ("pr_" ++ "mu+") = some (6, 8) from rfl,
    show ctxW7.projs = [] from rfl,
    show ctxW7.e_grid = [1, 2] from rfl,
    show "mu+".dropRight 1 = "mu" from rfl,
    List.foldlM_nil, List.foldlM_cons, List.zipWith_cons_cons, List.replicate_succ]

theorem prob_nomu_poisson_witness :
    0 < expStandin (-(trapz (List.zipWith (fun mv _ => mv * (1/2 : ℚ))
      (List.zipWith (· + ·) [4, 5] [4, 5]) ctxW7.e_grid) ctxW7.e_grid)) ∧
    expStandin (-(trapz (List.zipWith (fun mv _ => mv * (1/2 : ℚ))
      (List.zipWith (· + ·) [4, 5] [4, 5]) ctxW7.e_grid) ctxW7.e_grid)) ≤ 1 :=
  (prob_nomu_poisson ctxW7 expStandin (fun c => c) 1 (fun _ _ => 1/2) gsW7 [4, 5] [4, 5]
    get_solution_muW7m get_solution_muW7p
    (by intro x hx; fin_cases hx <;> norm_num)
    (by intro x hx; fin_cases hx <;> norm_num)
    (fun _ _ => ⟨by norm_num, by norm_num⟩)
    (by rw [show ctxW7.e_grid = [1, 2] from rfl]
        norm_num [List.chain'_cons, List.chain'_singleton])
    (by norm_num [expStandin])
    expStandin_mono
    expStandin_pos).2 _
    ((prob_nomu_poisson ctxW7 expStandin (fun c => c) 1 (fun _ _ => 1/2) gsW7 [4, 5] [4, 5]
      get_solution_muW7m get_solution_muW7p
      (by intro x hx; fin_cases hx <;> norm_num)
      (by intro x hx; fin_cases hx <;> norm_num)
      (fun _ _ => ⟨by norm_num, by norm_num⟩)
      (by rw [show ctxW7.e_grid = [1, 2] from rfl]
          norm_num [List.chain'_cons, List.chain'_singleton])
      (by norm_num [expStandin])
      expStandin_mono
      expStandin_pos).1)

/- ------------------------------------------------------------------ -/
/- C10: the no-mu interpolant fill values, NaN propagation, istart     -/
/- ------------------------------------------------------------------ -/

theorem getLastD_eq_getElem (l : List ℚ) (d : ℚ) (h : 0 < l.length) :
    l.getLastD d = l[l.length - 1] := by
  induction l generalizing d with
  | nil => simp at h
  | cons a t ih =>
    cases t with
    | nil => rfl
    | cons b u =>
      rw [List.getLastD_cons, ih a (by simp)]
      show (b :: u)[(b :: u).length - 1] = (a :: b :: u)[(a :: b :: u).length - 1]
      simp only [List.length_cons, Nat.add_sub_cancel]
      rw [List.getElem_cons_succ]

theorem chain'_lt_map_range (f : ℕ → ℚ) (n : ℕ)
    (hf : ∀ m, m + 1 < n → f m < f (m + 1)) :
    List.Chain' (· < ·) ((List.range n).map f) := by
  rw [List.chain'_map]
  cases n with
  | zero => simp
  | succ k =>
    rw [List.chain'_range_succ]
    intro m hm
    exact hf m (by omega)

theorem ecrs_grid_sorted (pow10 : ℚ → ℚ) (amu : ℤ → ℚ) (accuracy : ℕ) (particle : ℤ)
    (hmono : StrictMono pow10) (hA : 0 < amu particle) :
    List.Chain' (· < ·) (ecrs_grid pow10 amu accuracy particle) := by
  unfold ecrs_grid logspace
  rw [List.map_map]
  apply chain'_lt_map_range
  intro m hm
  simp only [Function.comp]
  apply mul_lt_mul_of_pos_left _ hA
  apply hmono
  have hc : (0 : ℚ) < ((10 * accuracy : ℕ) : ℚ) - 1 := by
    have h2n : (2 : ℕ) ≤ 10 * accuracy := by omega
    have : (2 : ℚ) ≤ ((10 * accuracy : ℕ) : ℚ) := by exact_mod_cast h2n
    linarith
  have hmlt : ((m : ℚ)) < ((m + 1 : ℕ) : ℚ) := by
    exact_mod_cast Nat.lt_succ_self m
  have : (10 - 2 : ℚ) * (m : ℚ) / (((10 * accuracy : ℕ) : ℚ) - 1) <
      (10 - 2) * ((m + 1 : ℕ) : ℚ) / (((10 * accuracy : ℕ) : ℚ) - 1) := by
    apply div_lt_div_of_pos_right _ hc
    nlinarith
  linarith

theorem istart_spec (ecrs : List ℚ) (enu : ℚ)
    (hch : List.Chain' (· < ·) ecrs)
    (hfirst : ecrs.getD 0 0 ≤ enu)
    (hex : ∃ x ∈ ecrs, enu < x) :
    istart_of ecrs enu < ecrs.length ∧
    ecrs.getD (istart_of ecrs enu) 0 ≤ enu ∧
    ∀ j : ℕ, j < ecrs.length → ecrs.getD j 0 ≤ enu → j ≤ istart_of ecrs enu := by
  have hmono := List.pairwise_iff_getElem.mp (List.chain'_iff_pairwise.mp hch)
  have hexb : ∃ x ∈ ecrs, (fun x => decide (enu < x)) x = true := by
    obtain ⟨x, hx, hlt⟩ := hex
    exact ⟨x, hx, by simpa using hlt⟩
  have hfi : ecrs.findIdx (fun x => decide (enu < x)) < ecrs.length :=
    List.findIdx_lt_length_of_exists hexb
  have hpfi := @List.findIdx_getElem _ _ _ hfi
  have hi_pos : 0 < ecrs.findIdx (fun x => decide (enu < x)) := by
    rcases Nat.eq_zero_or_pos (ecrs.findIdx (fun x => decide (enu < x))) with hz | hp
    · exfalso
      have hthis : enu < ecrs.getD (ecrs.findIdx fun x => decide (enu < x)) 0 := by
        rw [List.getD_eq_getElem _ _ hfi]
        simpa using hpfi
      rw [hz] at hthis
      exact absurd hfirst (not_le.mpr hthis)
    · exact hp
  have hargmax : argmax_gt ecrs enu = ecrs.findIdx (fun x => decide (enu < x)) := by
    unfold argmax_gt
    rw [if_neg (by omega)]
  have histart : istart_of ecrs enu = ecrs.findIdx (fun x => decide (enu < x)) - 1 := by
    unfold istart_of
    rw [hargmax]
  have hklt : istart_of ecrs enu < ecrs.length := by omega
  refine ⟨hklt, ?_, ?_⟩
  · rw [List.getD_eq_getElem _ _ hklt]
    have hlt : istart_of ecrs enu < ecrs.findIdx (fun x => decide (enu < x)) := by omega
    have := List.not_of_lt_findIdx hlt
    simp only [decide_eq_false_iff_not, not_lt] at this
    exact this
  · intro j hj hle
    by_contra hgt
    push_neg at hgt
    have hij : ecrs.findIdx (fun x => decide (enu < x)) ≤ j := by omega
    have henu_lt : enu < ecrs[j] := by
      rcases Nat.lt_or_ge (ecrs.findIdx (fun x => decide (enu < x))) j with hlt | hge
      · have := hmono (ecrs.findIdx (fun x => decide (enu < x))) j hfi hj hlt
        have h1 : enu < ecrs[ecrs.findIdx fun x => decide (enu < x)] := by simpa using hpfi
        linarith
      · have hj_eq : j = ecrs.findIdx (fun x => decide (enu < x)) := by omega
        subst hj_eq
        simpa using hpfi
    rw [List.getD_eq_getElem _ _ hj] at hle
    exact absurd hle (not_le.mpr henu_lt)

theorem otrapz_none : ∀ (ys : List (Option ℚ)) (xs : List ℚ) (i : ℕ)
    (hi : i < ys.length), 2 ≤ ys.length → ys.length ≤ xs.length → ys[i] = none →
    otrapz ys xs = none := by
  intro ys
  induction ys with
  | nil => intro xs i hi; simp at hi
  | cons y1 t ih =>
    intro xs i hi h2 hxs hnone
    cases t with
    | nil => simp at h2
    | cons y2 u =>
      cases xs with
      | nil => simp at hxs
      | cons x1 v =>
        cases v with
        | nil => simp at hxs
        | cons x2 w =>
          show oadd ((oadd y1 y2).map (fun s => s / 2 * (x2 - x1)))
            (otrapz (y2 :: u) (x2 :: w)) = none
          cases i with
          | zero =>
            have hy1 : y1 = none := by simpa using hnone
            subst hy1
            rfl
          | succ j =>
            cases u with
            | nil =>
              have hj : j = 0 := by
                simp at hi
                omega
              subst hj
              have hy2 : y2 = none := by simpa using hnone
              subst hy2
              cases y1 <;> rfl
            | cons y3 z =>
              have hj' : j < (y2 :: y3 :: z).length := by
                simp at hi ⊢
                omega
              have hrec : otrapz (y2 :: y3 :: z) (x2 :: w) = none := by
                apply ih (x2 :: w) j hj' (by simp) (by simp at hxs ⊢; omega)
                simp only [List.getElem_cons_succ] at hnone
                exact hnone
              rw [hrec]
              cases oadd y1 y2 <;> rfl

theorem num_ecr_nan_none (integrand : List ℚ) (pnmarr : List (Option ℚ))
    (esamp : List ℚ) (i : ℕ) (hi : i < pnmarr.length)
    (hl1 : pnmarr.length ≤ integrand.length) (hl2 : pnmarr.length ≤ esamp.length)
    (h2 : 2 ≤ pnmarr.length) (hnone : pnmarr[i] = none) :
    num_ecr_nan integrand pnmarr esamp = none := by
  unfold num_ecr_nan
  exact otrapz_none _ _ i (by rw [List.length_zipWith]; omega)
    (by rw [List.length_zipWith]; omega)
    (by rw [List.length_zipWith]; omega)
    (by rw [List.getElem_zipWith, hnone]; rfl)

/-- C10: the coarse no-mu interpolant of full mode uses fill values
`(1, NaN)`: every residual energy below the lowest sampled primary energy
`100·A` GeV evaluates to exactly 1, and every residual above the highest
sample `1e10·A` GeV evaluates to NaN, which propagates through the
numerator trapezoidal accumulation (modelled by `none`); and the loop
start `istart` is the largest grid index whose sample does not exceed
`enu`, so all earlier primary-energy samples are skipped. -/
theorem pnm_fill_and_istart (pow10 : ℚ → ℚ) (amu : ℤ → ℚ) (accuracy : ℕ)
    (particle : ℤ) (pnm : List ℚ) (enu : ℚ)
    (hacc : 1 ≤ accuracy) (h2 : pow10 2 = 100) (h10 : pow10 10 = 10 ^ 10)
    (hmono : StrictMono pow10) (hA : 0 < amu particle) :
    (∀ x : ℚ, x < amu particle * 100 →
      pnmfn_eval (ecrs_grid pow10 amu accuracy particle) pnm x = some 1) ∧
    (∀ x : ℚ, amu particle * 10 ^ 10 < x →
      pnmfn_eval (ecrs_grid pow10 amu accuracy particle) pnm x = none) ∧
    (∀ (integrand : List ℚ) (pnmarr : List (Option ℚ)) (esamp : List ℚ) (i : ℕ)
       (hi : i < pnmarr.length), pnmarr.length ≤ integrand.length →
       pnmarr.length ≤ esamp.length → 2 ≤ pnmarr.length → pnmarr[i] = none →
       num_ecr_nan integrand pnmarr esamp = none) ∧
    ((ecrs_grid pow10 amu accuracy particle).getD 0 0 ≤ enu →
     (∃ x ∈ ecrs_grid pow10 amu accuracy particle, enu < x) →
     istart_of (ecrs_grid pow10 amu accuracy particle) enu <
       (ecrs_grid pow10 amu accuracy particle).length ∧
     (ecrs_grid pow10 amu accuracy particle).getD
       (istart_of (ecrs_grid pow10 amu accuracy particle) enu) 0 ≤ enu ∧
     ∀ j : ℕ, j < (ecrs_grid pow10 amu accuracy particle).length →
       (ecrs_grid pow10 amu accuracy particle).getD j 0 ≤ enu →
       j ≤ istart_of (ecrs_grid pow10 amu accuracy particle) enu) := by
  have hlen := ecrs_grid_length pow10 amu accuracy particle
  have h0 : 0 < (ecrs_grid pow10 amu accuracy particle).length := by omega
  have hhead : (ecrs_grid pow10 amu accuracy particle).getD 0 0 = amu particle * 100 := by
    rw [List.getD_eq_getElem _ _ h0]
    exact ecrs_grid_first pow10 amu accuracy particle h2 h0
  have hlast : (ecrs_grid pow10 amu accuracy particle).getLastD 0 =
      amu particle * 10 ^ 10 := by
    rw [getLastD_eq_getElem _ _ h0]
    simp only [hlen]
    exact ecrs_grid_last pow10 amu accuracy particle hacc h10 (by omega)
  refine ⟨?_, ?_, ?_, ?_⟩
  · intro x hx
    unfold pnmfn_eval
    rw [if_pos (by rw [hhead]; exact hx)]
  · intro x hx
    unfold pnmfn_eval
    have h100 : amu particle * 100 ≤ amu particle * 10 ^ 10 := by nlinarith
    rw [if_neg (by rw [hhead]; push_neg; linarith), if_pos (by rw [hlast]; exact hx)]
  · intro integrand pnmarr esamp i hi hl1 hl2 htwo hnone
    exact num_ecr_nan_none integrand pnmarr esamp i hi hl1 hl2 htwo hnone
  · intro hfirst hex
    exact istart_spec (ecrs_grid pow10 amu accuracy particle) enu
      (ecrs_grid_sorted pow10 amu accuracy particle hmono hA) hfirst hex

theorem pw10lin_strictMono : StrictMono pw10lin := by
  intro a b hab
  unfold pw10lin
  have hc : (0 : ℚ) < (10 ^ 10 - 100) / 8 := by norm_num
  nlinarith

theorem pnm_fill_and_istart_witness :
    pnmfn_eval (ecrs_grid pw10lin (fun _ => 1) 1 14) (List.replicate 10 1) 50 = some 1 :=
  (pnm_fill_and_istart pw10lin (fun _ => 1) 1 14 (List.replicate 10 1) 1000
    (le_refl 1) (by norm_num [pw10lin]) (by norm_num [pw10lin])
    pw10lin_strictMono (by norm_num)).1 50 (by norm_num)

/- ------------------------------------------------------------------ -/
/- C1: passed ≤ total                                                  -/
/- ------------------------------------------------------------------ -/

theorem div_le_one_of_le_nonneg (a b : ℚ) (h : a ≤ b) (hb : 0 ≤ b) : a / b ≤ 1 := by
  rcases eq_or_lt_of_le hb with hb0 | hbpos
  · rw [← hb0, div_zero]
    exact zero_le_one
  · exact (div_le_one hbpos).mpr h

theorem chain'_le_map_range (f : ℕ → ℚ) (n : ℕ)
    (hf : ∀ m, m + 1 < n → f m ≤ f (m + 1)) :
    List.Chain' (· ≤ ·) ((List.range n).map f) := by
  rw [List.chain'_map]
  cases n with
  | zero => simp
  | succ k =>
    rw [List.chain'_range_succ]
    intro m hm
    exact hf m (by omega)

theorem ecrs_grid_sorted_le (pow10 : ℚ → ℚ) (amu : ℤ → ℚ) (accuracy : ℕ) (particle : ℤ)
    (hmono : Monotone pow10) (hA : 0 ≤ amu particle) :
    List.Chain' (· ≤ ·) (ecrs_grid pow10 amu accuracy particle) := by
  unfold ecrs_grid logspace
  rw [List.map_map]
  apply chain'_le_map_range
  intro m hm
  simp only [Function.comp]
  apply mul_le_mul_of_nonneg_left _ hA
  apply hmono
  have hc : (0 : ℚ) < ((10 * accuracy : ℕ) : ℚ) - 1 := by
    have h2n : (2 : ℕ) ≤ 10 * accuracy := by omega
    have : (2 : ℚ) ≤ ((10 * accuracy : ℕ) : ℚ) := by exact_mod_cast h2n
    linarith
  have hmle : ((m : ℚ)) ≤ ((m + 1 : ℕ) : ℚ) := by
    exact_mod_cast Nat.le_succ m
  have : (10 - 2 : ℚ) * (m : ℚ) / (((10 * accuracy : ℕ) : ℚ) - 1) ≤
      (10 - 2) * ((m + 1 : ℕ) : ℚ) / (((10 * accuracy : ℕ) : ℚ) - 1) := by
    rw [div_eq_mul_inv, div_eq_mul_inv]
    apply mul_le_mul_of_nonneg_right (by nlinarith)
    positivity
  linarith

theorem get_integrand_length (categ daughter : String) (dNdEE : String → String → ℚ → ℚ)
    (rphi : String → ℚ → ℚ) (weight esamp : List ℚ) (enu : ℚ) :
    (get_integrand categ daughter dNdEE rphi weight esamp enu).length =
      min esamp.length weight.length := by
  unfold get_integrand
  rw [List.length_zipWith]

theorem get_integrand_getElem (categ daughter : String) (dNdEE : String → String → ℚ → ℚ)
    (rphi : String → ℚ → ℚ) (weight esamp : List ℚ) (enu : ℚ) (i : ℕ)
    (he : i < esamp.length) (hw : i < weight.length)
    (h : i < (get_integrand categ daughter dNdEE rphi weight esamp enu).length) :
    (get_integrand categ daughter dNdEE rphi weight esamp enu)[i] =
      ((categ_to_mothers categ daughter).map (fun mother =>
        dNdEE mother daughter (enu / esamp[i]) / esamp[i] * rphi mother esamp[i])).sum *
        weight[i] := by
  unfold get_integrand
  rw [List.getElem_zipWith]
  rw [List.sum_map_mul_right]

/-- The per-depth-step trapezoidal inequality: the numerator integrand
(the base integrand weighted by `reaching` and by the no-muon
probabilities, both in `[0, 1]`) integrates to at most the identity-weight
integrand, which is nonnegative. -/
theorem integrand_trapz_le (categ daughter : String) (dNdEE : String → String → ℚ → ℚ)
    (rphi : String → ℚ → ℚ) (reaching pnmarr esamp : List ℚ) (enu : ℚ)
    (hch : List.Chain' (· ≤ ·) esamp)
    (hlr : reaching.length = esamp.length) (hlp : pnmarr.length = esamp.length)
    (hre : ∀ x ∈ reaching, 0 ≤ x ∧ x ≤ 1) (hpn : ∀ x ∈ pnmarr, 0 ≤ x ∧ x ≤ 1)
    (hbase : ∀ y ∈ get_integrand categ daughter dNdEE rphi
      (List.replicate esamp.length 1) esamp enu, 0 ≤ y) :
    trapz (List.zipWith (· * ·)
      (get_integrand categ daughter dNdEE rphi reaching esamp enu) pnmarr) esamp ≤
      trapz (get_integrand categ daughter dNdEE rphi
        (List.replicate esamp.length 1) esamp enu) esamp ∧
    0 ≤ trapz (get_integrand categ daughter dNdEE rphi
      (List.replicate esamp.length 1) esamp enu) esamp := by
  have hlen_r : (get_integrand categ daughter dNdEE rphi reaching esamp enu).length =
      esamp.length := by
    rw [get_integrand_length, hlr, min_self]
  have hlen_1 : (get_integrand categ daughter dNdEE rphi
      (List.replicate esamp.length 1) esamp enu).length = esamp.length := by
    rw [get_integrand_length, List.length_replicate, min_self]
  have hone_val : ∀ (i : ℕ) (hie : i < esamp.length)
      (h2 : i < (get_integrand categ daughter dNdEE rphi
        (List.replicate esamp.length 1) esamp enu).length),
      (get_integrand categ daughter dNdEE rphi
        (List.replicate esamp.length 1) esamp enu)[i] =
      ((categ_to_mothers categ daughter).map (fun mother =>
        dNdEE mother daughter (enu / esamp[i]) / esamp[i] *
          rphi mother esamp[i])).sum := by
    intro i hie h2
    rw [get_integrand_getElem categ daughter dNdEE rphi _ esamp enu i hie
      (by rw [List.length_replicate]; exact hie) h2]
    rw [List.getElem_replicate, mul_one]
  constructor
  · apply trapz_le_trapz
    · rw [List.length_zipWith, hlen_r, hlp, min_self, hlen_1]
    · exact hch
    · intro i h1 h2
      have hie : i < esamp.length := by
        rw [List.length_zipWith, hlen_r, hlp, min_self] at h1
        exact h1
      have hir : i < reaching.length := by omega
      have hip : i < pnmarr.length := by omega
      have hig : i < (get_integrand categ daughter dNdEE rphi reaching esamp enu).length := by
        omega
      rw [List.getElem_zipWith]
      rw [get_integrand_getElem categ daughter dNdEE rphi reaching esamp enu i hie hir hig]
      rw [hone_val i hie h2]
      obtain ⟨hr0, hr1⟩ := hre _ (List.getElem_mem hir)
      obtain ⟨hp0, hp1⟩ := hpn _ (List.getElem_mem hip)
      have hS : 0 ≤ ((categ_to_mothers categ daughter).map (fun mother =>
          dNdEE mother daughter (enu / esamp[i]) / esamp[i] *
            rphi mother esamp[i])).sum := by
        have hmem := List.getElem_mem (by omega :
          i < (get_integrand categ daughter dNdEE rphi
            (List.replicate esamp.length 1) esamp enu).length)
        have := hbase _ hmem
        rwa [hone_val i hie (by omega)] at this
      nlinarith [mul_nonneg hS hr0, mul_nonneg (mul_nonneg hS hr0) hp0,
        mul_le_mul_of_nonneg_left hp1 (mul_nonneg hS hr0),
        mul_le_mul_of_nonneg_left hr1 hS]
  · apply trapz_nonneg _ _ hch
    intro i hi
    exact hbase _ (List.getElem_mem hi)

/-- The inner double integral of full mode satisfies `num_ecr ≤ den_ecr`,
and the denominator is nonnegative. -/
theorem num_den_ecr_le (categ daughter : String) (dNdEE : String → String → ℚ → ℚ)
    (rphi : ℕ → String → ℚ → ℚ) (nx : ℕ) (reaching pnmarr esamp : List ℚ) (enu : ℚ)
    (hch : List.Chain' (· ≤ ·) esamp)
    (hlr : reaching.length = esamp.length) (hlp : pnmarr.length = esamp.length)
    (hre : ∀ x ∈ reaching, 0 ≤ x ∧ x ≤ 1) (hpn : ∀ x ∈ pnmarr, 0 ≤ x ∧ x ≤ 1)
    (hbase : ∀ idx : ℕ, ∀ y ∈ get_integrand categ daughter dNdEE (rphi idx)
      (List.replicate esamp.length 1) esamp enu, 0 ≤ y) :
    (num_den_ecr categ daughter dNdEE rphi nx reaching pnmarr esamp enu).1 ≤
      (num_den_ecr categ daughter dNdEE rphi nx reaching pnmarr esamp enu).2 ∧
    0 ≤ (num_den_ecr categ daughter dNdEE rphi nx reaching pnmarr esamp enu).2 := by
  unfold num_den_ecr
  constructor
  · apply List.sum_le_sum
    intro idx _
    exact (integrand_trapz_le categ daughter dNdEE (rphi idx) reaching pnmarr esamp enu
      hch hlr hlp hre hpn (hbase idx)).1
  · apply List.sum_nonneg
    intro x hx
    obtain ⟨idx, _, rfl⟩ := List.mem_map.mp hx
    exact (integrand_trapz_le categ daughter dNdEE (rphi idx) reaching pnmarr esamp enu
      hch hlr hlp hre hpn (hbase idx)).2

theorem div_le_div_right_of_nonneg (a b c : ℚ) (h : a ≤ b) (hc : 0 ≤ c) :
    a / c ≤ b / c := by
  rw [div_eq_mul_inv, div_eq_mul_inv]
  exact mul_le_mul_of_nonneg_right h (inv_nonneg.mpr hc)

theorem zipWith_mul_one_right (l : List ℚ) (n : ℕ) (h : l.length ≤ n) :
    List.zipWith (· * ·) l (List.replicate n 1) = l := by
  induction l generalizing n with
  | nil => simp
  | cons a l ih =>
    cases n with
    | zero => simp at h
    | succ n =>
      simp only [List.replicate_succ, List.zipWith_cons_cons, mul_one]
      rw [ih n (by simpa using h)]

/-- In full mode, each nucleus species' contribution to the passed flux is
at most its contribution to the total flux, and the latter is
nonnegative. -/
theorem get_fluxes_full_particle_le (categ daughter : String)
    (dNdEE : String → String → ℚ → ℚ) (rescale : ℤ → ℚ → ℕ → String → ℚ → ℚ)
    (pow10 : ℚ → ℚ) (amu : ℤ → ℚ) (accuracy : ℕ) (pnmfn : ℤ → ℚ → ℚ)
    (nucleus_flux : ℤ → ℚ → ℚ) (phim2 phicm2 : ℚ) (nx : ℕ)
    (reaching esamp : List ℚ) (enu : ℚ) (particle : ℤ)
    (hch : List.Chain' (· ≤ ·) esamp)
    (hlr : reaching.length = esamp.length)
    (hre : ∀ x ∈ reaching, 0 ≤ x ∧ x ≤ 1)
    (hpnm : ∀ x, 0 ≤ pnmfn particle x ∧ pnmfn particle x ≤ 1)
    (hbase : ∀ ecr : ℚ, ∀ idx : ℕ, ∀ y ∈ get_integrand categ daughter dNdEE
      (rescale particle ecr idx) (List.replicate esamp.length 1) esamp enu, 0 ≤ y)
    (hpow : Monotone pow10) (hamu : 0 ≤ amu particle)
    (hflux : ∀ e, 0 ≤ nucleus_flux particle e)
    (hphim : 0 ≤ phim2) (hphic : 0 ≤ phicm2) :
    trapz (((ecrs_grid pow10 amu accuracy particle).drop
        (istart_of (ecrs_grid pow10 amu accuracy particle) enu)).map (fun ecr =>
      (num_den_ecr categ daughter dNdEE (rescale particle ecr) nx reaching
        (esamp.map (fun e => pnmfn particle (ecr - e))) esamp enu).1 *
        (nucleus_flux particle ecr * phim2) / phicm2))
      ((ecrs_grid pow10 amu accuracy particle).drop
        (istart_of (ecrs_grid pow10 amu accuracy particle) enu)) ≤
    trapz (((ecrs_grid pow10 amu accuracy particle).drop
        (istart_of (ecrs_grid pow10 amu accuracy particle) enu)).map (fun ecr =>
      (num_den_ecr categ daughter dNdEE (rescale particle ecr) nx reaching
        (esamp.map (fun e => pnmfn particle (ecr - e))) esamp enu).2 *
        (nucleus_flux particle ecr * phim2) / phicm2))
      ((ecrs_grid pow10 amu accuracy particle).drop
        (istart_of (ecrs_grid pow10 amu accuracy particle) enu)) ∧
    0 ≤ trapz (((ecrs_grid pow10 amu accuracy particle).drop
        (istart_of (ecrs_grid pow10 amu accuracy particle) enu)).map (fun ecr =>
      (num_den_ecr categ daughter dNdEE (rescale particle ecr) nx reaching
        (esamp.map (fun e => pnmfn particle (ecr - e))) esamp enu).2 *
        (nucleus_flux particle ecr * phim2) / phicm2))
      ((ecrs_grid pow10 amu accuracy particle).drop
        (istart_of (ecrs_grid pow10 amu accuracy particle) enu)) := by
  have htail : List.Chain' (· ≤ ·) ((ecrs_grid pow10 amu accuracy particle).drop
      (istart_of (ecrs_grid pow10 amu accuracy particle) enu)) :=
    (ecrs_grid_sorted_le pow10 amu accuracy particle hpow hamu).drop _
  have hpair : ∀ ecr : ℚ,
      (num_den_ecr categ daughter dNdEE (rescale particle ecr) nx reaching
        (esamp.map (fun e => pnmfn particle (ecr - e))) esamp enu).1 ≤
      (num_den_ecr categ daughter dNdEE (rescale particle ecr) nx reaching
        (esamp.map (fun e => pnmfn particle (ecr - e))) esamp enu).2 ∧
      0 ≤ (num_den_ecr categ daughter dNdEE (rescale particle ecr) nx reaching
        (esamp.map (fun e => pnmfn particle (ecr - e))) esamp enu).2 := by
    intro ecr
    apply num_den_ecr_le categ daughter dNdEE (rescale particle ecr) nx reaching
      (esamp.map (fun e => pnmfn particle (ecr - e))) esamp enu hch hlr
      (by rw [List.length_map]) hre
    · intro x hx
      obtain ⟨e, _, rfl⟩ := List.mem_map.mp hx
      exact hpnm (ecr - e)
    · exact hbase ecr
  have hterm : ∀ ecr : ℚ,
      (num_den_ecr categ daughter dNdEE (rescale particle ecr) nx reaching
        (esamp.map (fun e => pnmfn particle (ecr - e))) esamp enu).1 *
        (nucleus_flux particle ecr * phim2) / phicm2 ≤
      (num_den_ecr categ daughter dNdEE (rescale particle ecr) nx reaching
        (esamp.map (fun e => pnmfn particle (ecr - e))) esamp enu).2 *
        (nucleus_flux particle ecr * phim2) / phicm2 := by
    intro ecr
    apply div_le_div_right_of_nonneg _ _ _ _ hphic
    exact mul_le_mul_of_nonneg_right (hpair ecr).1
      (mul_nonneg (hflux ecr) hphim)
  have hterm0 : ∀ ecr : ℚ,
      0 ≤ (num_den_ecr categ daughter dNdEE (rescale particle ecr) nx reaching
        (esamp.map (fun e => pnmfn particle (ecr - e))) esamp enu).2 *
        (nucleus_flux particle ecr * phim2) / phicm2 := by
    intro ecr
    apply div_nonneg _ hphic
    exact mul_nonneg (hpair ecr).2 (mul_nonneg (hflux ecr) hphim)
  constructor
  · apply trapz_le_trapz _ _ _ (by rw [List.length_map, List.length_map]) htail
    intro i h1 h2
    rw [List.getElem_map, List.getElem_map]
    exact hterm _
  · apply trapz_nonneg _ _ htail
    intro i hi
    rw [List.getElem_map]
    exact hterm0 _

/-- Full mode: the passed flux is at most the total flux, and the total is
nonnegative. -/
theorem get_fluxes_full_le (categ daughter : String)
    (dNdEE : String → String → ℚ → ℚ) (rescale : ℤ → ℚ → ℕ → String → ℚ → ℚ)
    (pow10 : ℚ → ℚ) (amu : ℤ → ℚ) (accuracy : ℕ) (nucleus_ids : List ℤ)
    (pnmfn : ℤ → ℚ → ℚ) (nucleus_flux : ℤ → ℚ → ℚ) (phim2 phicm2 : ℚ) (nx : ℕ)
    (reaching esamp : List ℚ) (enu : ℚ)
    (hch : List.Chain' (· ≤ ·) esamp)
    (hlr : reaching.length = esamp.length)
    (hre : ∀ x ∈ reaching, 0 ≤ x ∧ x ≤ 1)
    (hpnm : ∀ (p : ℤ) (x : ℚ), 0 ≤ pnmfn p x ∧ pnmfn p x ≤ 1)
    (hbase : ∀ (p : ℤ) (ecr : ℚ) (idx : ℕ), ∀ y ∈ get_integrand categ daughter dNdEE
      (rescale p ecr idx) (List.replicate esamp.length 1) esamp enu, 0 ≤ y)
    (hpow : Monotone pow10) (hamu : ∀ p : ℤ, 0 ≤ amu p)
    (hflux : ∀ (p : ℤ) (e : ℚ), 0 ≤ nucleus_flux p e)
    (hphim : 0 ≤ phim2) (hphic : 0 ≤ phicm2) :
    (get_fluxes_full categ daughter dNdEE rescale pow10 amu accuracy nucleus_ids
      pnmfn nucleus_flux phim2 phicm2 nx reaching esamp enu).1 ≤
    (get_fluxes_full categ daughter dNdEE rescale pow10 amu accuracy nucleus_ids
      pnmfn nucleus_flux phim2 phicm2 nx reaching esamp enu).2 ∧
    0 ≤ (get_fluxes_full categ daughter dNdEE rescale pow10 amu accuracy nucleus_ids
      pnmfn nucleus_flux phim2 phicm2 nx reaching esamp enu).2 := by
  unfold get_fluxes_full
  simp only [List.map_map]
  constructor
  · apply List.sum_le_sum
    intro particle _
    simp only [Function.comp]
    exact (get_fluxes_full_particle_le categ daughter dNdEE rescale pow10 amu accuracy
      pnmfn nucleus_flux phim2 phicm2 nx reaching esamp enu particle hch hlr hre
      (hpnm particle) (hbase particle) hpow (hamu particle) (hflux particle)
      hphim hphic).1
  · apply List.sum_nonneg
    intro x hx
    obtain ⟨particle, _, rfl⟩ := List.mem_map.mp hx
    simp only [Function.comp]
    exact (get_fluxes_full_particle_le categ daughter dNdEE rescale pow10 amu accuracy
      pnmfn nucleus_flux phim2 phicm2 nx reaching esamp enu particle hch hlr hre
      (hpnm particle) (hbase particle) hpow (hamu particle) (hflux particle)
      hphim hphic).2

/-- Correlated-only mode: the passed flux is at most the total flux, and
the total is nonnegative. -/
theorem get_fluxes_corr_le (categ daughter : String)
    (dNdEE : String → String → ℚ → ℚ) (rescale0 : ℕ → String → ℚ → ℚ) (nx : ℕ)
    (reaching esamp : List ℚ) (enu : ℚ)
    (hch : List.Chain' (· ≤ ·) esamp)
    (hlr : reaching.length = esamp.length)
    (hre : ∀ x ∈ reaching, 0 ≤ x ∧ x ≤ 1)
    (hbase : ∀ idx : ℕ, ∀ y ∈ get_integrand categ daughter dNdEE (rescale0 idx)
      (List.replicate esamp.length 1) esamp enu, 0 ≤ y) :
    (get_fluxes_corr categ daughter dNdEE rescale0 nx reaching esamp enu).1 ≤
    (get_fluxes_corr categ daughter dNdEE rescale0 nx reaching esamp enu).2 ∧
    0 ≤ (get_fluxes_corr categ daughter dNdEE rescale0 nx reaching esamp enu).2 := by
  have hones : ∀ x ∈ (List.replicate esamp.length (1 : ℚ)), 0 ≤ x ∧ x ≤ 1 := by
    intro x hx
    rw [List.eq_of_mem_replicate hx]
    norm_num
  have key : ∀ idx : ℕ,
      trapz (get_integrand categ daughter dNdEE (rescale0 idx) reaching esamp enu)
        esamp ≤
      trapz (get_integrand categ daughter dNdEE (rescale0 idx)
        (List.replicate esamp.length 1) esamp enu) esamp ∧
      0 ≤ trapz (get_integrand categ daughter dNdEE (rescale0 idx)
        (List.replicate esamp.length 1) esamp enu) esamp := by
    intro idx
    have hz : List.zipWith (· * ·)
        (get_integrand categ daughter dNdEE (rescale0 idx) reaching esamp enu)
        (List.replicate esamp.length 1) =
        get_integrand categ daughter dNdEE (rescale0 idx) reaching esamp enu := by
      apply zipWith_mul_one_right
      rw [get_integrand_length, hlr, min_self]
    have := integrand_trapz_le categ daughter dNdEE (rescale0 idx) reaching
      (List.replicate esamp.length 1) esamp enu hch hlr
      (List.length_replicate _ _) hre hones (hbase idx)
    rwa [hz] at this
  unfold get_fluxes_corr
  constructor
  · apply List.sum_le_sum
    intro idx _
    exact (key idx).1
  · apply List.sum_nonneg
    intro x hx
    obtain ⟨idx, _, rfl⟩ := List.mem_map.mp hx
    exact (key idx).2

/-- C1: for every setting of the `corr_only` flag and every input — given
that the companion-weighting array `reaching` and the no-muon
probabilities lie in `[0, 1]`, that the assembled unit-weight integrands
are nonnegative, that the base-10 power function is monotone, and that the
mass numbers and the primary-flux weighting factors are nonnegative — the
pair `(passed, total)` returned by `get_fluxes` satisfies
`passed ≤ total` with `0 ≤ total`, and hence `passing_rate` with
`fraction = true` returns a value at most `1`. -/
theorem get_fluxes_passed_le_total (corr_only : Bool) (categ daughter : String)
    (dNdEE : String → String → ℚ → ℚ) (rescale0 : ℕ → String → ℚ → ℚ)
    (rescale : ℤ → ℚ → ℕ → String → ℚ → ℚ) (pow10 : ℚ → ℚ) (amu : ℤ → ℚ)
    (accuracy : ℕ) (nucleus_ids : List ℤ) (pnmfn : ℤ → ℚ → ℚ)
    (nucleus_flux : ℤ → ℚ → ℚ) (phim2 phicm2 : ℚ) (nx : ℕ)
    (reaching esamp : List ℚ) (enu : ℚ)
    (svs : List (EngineKey × Unit)) (key : EngineKey)
    (hch : List.Chain' (· ≤ ·) esamp)
    (hlr : reaching.length = esamp.length)
    (hre : ∀ x ∈ reaching, 0 ≤ x ∧ x ≤ 1)
    (hpnm : ∀ (p : ℤ) (x : ℚ), 0 ≤ pnmfn p x ∧ pnmfn p x ≤ 1)
    (hbase0 : ∀ idx : ℕ, ∀ y ∈ get_integrand categ daughter dNdEE (rescale0 idx)
      (List.replicate esamp.length 1) esamp enu, 0 ≤ y)
    (hbase : ∀ (p : ℤ) (ecr : ℚ) (idx : ℕ), ∀ y ∈ get_integrand categ daughter dNdEE
      (rescale p ecr idx) (List.replicate esamp.length 1) esamp enu, 0 ≤ y)
    (hpow : Monotone pow10) (hamu : ∀ p : ℤ, 0 ≤ amu p)
    (hflux : ∀ (p : ℤ) (e : ℚ), 0 ≤ nucleus_flux p e)
    (hphim : 0 ≤ phim2) (hphic : 0 ≤ phicm2) :
    (get_fluxes corr_only categ daughter dNdEE rescale0 rescale pow10 amu accuracy
      nucleus_ids pnmfn nucleus_flux phim2 phicm2 nx reaching esamp enu).1 ≤
    (get_fluxes corr_only categ daughter dNdEE rescale0 rescale pow10 amu accuracy
      nucleus_ids pnmfn nucleus_flux phim2 phicm2 nx reaching esamp enu).2 ∧
    0 ≤ (get_fluxes corr_only categ daughter dNdEE rescale0 rescale pow10 amu accuracy
      nucleus_ids pnmfn nucleus_flux phim2 phicm2 nx reaching esamp enu).2 ∧
    (passing_rate svs (fun _ => ()) (fun _ =>
      get_fluxes corr_only categ daughter dNdEE rescale0 rescale pow10 amu accuracy
        nucleus_ids pnmfn nucleus_flux phim2 phicm2 nx reaching esamp enu)
      key true).1 ≤ 1 := by
  have hmain : (get_fluxes corr_only categ daughter dNdEE rescale0 rescale pow10 amu
      accuracy nucleus_ids pnmfn nucleus_flux phim2 phicm2 nx reaching esamp enu).1 ≤
      (get_fluxes corr_only categ daughter dNdEE rescale0 rescale pow10 amu
        accuracy nucleus_ids pnmfn nucleus_flux phim2 phicm2 nx reaching esamp enu).2 ∧
      0 ≤ (get_fluxes corr_only categ daughter dNdEE rescale0 rescale pow10 amu
        accuracy nucleus_ids pnmfn nucleus_flux phim2 phicm2 nx reaching esamp enu).2 := by
    cases corr_only with
    | false =>
      simp only [get_fluxes, Bool.false_eq_true, if_false]
      exact get_fluxes_full_le categ daughter dNdEE rescale pow10 amu accuracy
        nucleus_ids pnmfn nucleus_flux phim2 phicm2 nx reaching esamp enu
        hch hlr hre hpnm hbase hpow hamu hflux hphim hphic
    | true =>
      simp only [get_fluxes, if_true]
      exact get_fluxes_corr_le categ daughter dNdEE rescale0 nx reaching esamp enu
        hch hlr hre hbase0
  refine ⟨hmain.1, hmain.2, ?_⟩
  simp only [passing_rate, if_true]
  exact div_le_one_of_le_nonneg _ _ hmain.1 hmain.2

/-- Witness for C1 at a concrete full-mode fixture: constant unit kernels
and fluxes, one nucleus species, a two-sample companion grid. -/
theorem get_fluxes_passed_le_total_witness :
    (get_fluxes false "conv" "numu" (fun _ _ _ => 1) (fun _ _ _ => 1)
      (fun _ _ _ _ _ => 1) pw10lin (fun _ => 1) 1 [14] (fun _ _ => 1)
      (fun _ _ => 1) 1 1 1 [1, 1/2] [1, 2] 1).1 ≤
    (get_fluxes false "conv" "numu" (fun _ _ _ => 1) (fun _ _ _ => 1)
      (fun _ _ _ _ _ => 1) pw10lin (fun _ => 1) 1 [14] (fun _ _ => 1)
      (fun _ _ => 1) 1 1 1 [1, 1/2] [1, 2] 1).2 ∧
    0 ≤ (get_fluxes false "conv" "numu" (fun _ _ _ => 1) (fun _ _ _ => 1)
      (fun _ _ _ _ _ => 1) pw10lin (fun _ => 1) 1 [14] (fun _ _ => 1)
      (fun _ _ => 1) 1 1 1 [1, 1/2] [1, 2] 1).2 ∧
    (passing_rate [] (fun _ => ()) (fun _ =>
      get_fluxes false "conv" "numu" (fun _ _ _ => 1) (fun _ _ _ => 1)
        (fun _ _ _ _ _ => 1) pw10lin (fun _ => 1) 1 [14] (fun _ _ => 1)
        (fun _ _ => 1) 1 1 1 [1, 1/2] [1, 2] 1)
      ⟨1, ("H4a", "CT"), "SIBYLL2.3c"⟩ true).1 ≤ 1 :=
  get_fluxes_passed_le_total false "conv" "numu" (fun _ _ _ => 1) (fun _ _ _ => 1)
    (fun _ _ _ _ _ => 1) pw10lin (fun _ => 1) 1 [14] (fun _ _ => 1)
    (fun _ _ => 1) 1 1 1 [1, 1/2] [1, 2] 1 [] ⟨1, ("H4a", "CT"), "SIBYLL2.3c"⟩
    (by norm_num [List.chain'_cons, List.chain'_singleton])
    rfl
    (by
      intro x hx
      simp only [List.mem_cons, List.not_mem_nil, or_false] at hx
      rcases hx with rfl | rfl <;> norm_num)
    (by intro _ _; norm_num)
    (by
      intro _ y hy
      norm_num [get_integrand,
        show categ_to_mothers "conv" "numu" = ["pi+", "K+", "K0L", "mu-"] from rfl,
        List.replicate] at hy
      rcases hy with rfl | rfl <;> norm_num)
    (by
      intro _ _ _ y hy
      norm_num [get_integrand,
        show categ_to_mothers "conv" "numu" = ["pi+", "K+", "K0L", "mu-"] from rfl,
        List.replicate] at hy
      rcases hy with rfl | rfl <;> norm_num)
    pw10lin_strictMono.monotone
    (by intro _; norm_num)
    (by intro _ _; norm_num)
    (by norm_num)
    (by norm_num)

end NuVeto
